import Mathlib

/-!
Verification development for the citation-overlap record-linkage engine
(`citov/overlapper.py`, `citov/extractor.py`).

Modelling conventions, used throughout and noted at each definition:

* Python `str` values (record ids, key signatures, sentinels) are Lean
  `String`s.  Python's string ordering compares code points; we model it
  with an explicit lexicographic comparison on `String.data`
  (`strLe`), which agrees with Python for the ASCII ids and keys the
  program manipulates.
* The key dictionaries (`pmidDict`, `authorKeyDict`, ...) map a key value
  to a semicolon-joined string of record ids; the program only ever
  appends `';' + id` to a bucket, tests `';' in bucket` (that is: the
  bucket holds at least two ids) and splits the bucket back apart with
  `split(';')`.  Record ids never contain `';'`, so the joined string is
  represented faithfully by the list of ids; a missing dictionary key is
  the empty list.  The bucket test `';' in dict[v]` becomes
  `2 ≤ (idx v).length`.
* Python exceptions (`KeyError`, `ZeroDivisionError`, `ValueError` from
  `int`, `UnboundLocalError`) abort the computation; fallible code is
  modelled in `Option`, with `none` for an escaped exception.
* `jellyfish.damerau_levenshtein_distance` is an external library
  function (not part of this repository); it is modelled as a parameter
  `dl : String → String → Nat`.  Where a claim needs a metric property
  we take the textbook bound `dl s t ≤ max (length s) (length t)`,
  which the Damerau–Levenshtein distance satisfies, as a hypothesis.
* `int(x / y * c)` on non-negative Python floats truncates toward zero;
  it is modelled as natural-number division `x * c / y`, the exact
  floor.  No claim proved here depends on float rounding slack.
-/

/-! ### String primitives (models of Python str operations) -/

/-- Lexicographic comparison of character lists by code point, the order
Python uses when sorting strings. -/
def lexLe : List Char → List Char → Bool
  | [], _ => true
  | _ :: _, [] => false
  | a :: as, b :: bs =>
    if a.toNat < b.toNat then true
    else if b.toNat < a.toNat then false
    else lexLe as bs

/-- Python string comparison `a <= b` (code-point lexicographic). -/
def strLe (a b : String) : Bool := lexLe a.data b.data

/-- Propositional form of `strLe`, used as the sorting relation. -/
def StrLe (a b : String) : Prop := strLe a b = true

instance : DecidableRel StrLe := fun a b => instDecidableEqBool (strLe a b) true

/-- Python `sorted(...)` on a list of strings. -/
def sortIds (l : List String) : List String := List.insertionSort StrLe l

/-- Python `';'.join(...)`. -/
def joinSemi (l : List String) : String := ⟨((l.map String.data).intersperse [';']).flatten⟩

/-- Python `''.join(...)`. -/
def pyJoin (l : List String) : String := ⟨(l.map String.data).flatten⟩

/-- Python `s.split(sep)` for a single-character separator, on the
character list. `''.split(c) = ['']`, matching Python. -/
def splitCh (sep : Char) : List Char → List (List Char)
  | [] => [[]]
  | c :: cs =>
    if c = sep then [] :: splitCh sep cs
    else
      match splitCh sep cs with
      | [] => [[c]]
      | p :: ps => (c :: p) :: ps

/-- Python `s.split(sep)` for a single-character separator. -/
def pySplit (sep : Char) (s : String) : List String := (splitCh sep s.data).map String.mk

/-- Numeric value of a decimal digit character. -/
def digitVal (c : Char) : Option Nat :=
  if 48 ≤ c.toNat ∧ c.toNat ≤ 57 then some (c.toNat - 48) else none

/-- Accumulate decimal digits; `none` on a non-digit character. -/
def digitsToNatAux : List Char → Nat → Option Nat
  | [], acc => some acc
  | c :: cs, acc =>
    match digitVal c with
    | none => none
    | some d => digitsToNatAux cs (acc * 10 + d)

/-- Parse a non-empty all-digit character list. -/
def digitsToNat (l : List Char) : Option Nat :=
  if l = [] then none else digitsToNatAux l 0

/-- Model of Python `int(s)` on the year strings this program produces:
an optional sign followed by decimal digits.  A failing conversion
(Python `ValueError`) is `none`. -/
def pyInt (s : String) : Option Int :=
  match s.data with
  | '-' :: rest => (digitsToNat rest).map (fun n => -(n : Int))
  | '+' :: rest => (digitsToNat rest).map (fun n => (n : Int))
  | l => (digitsToNat l).map (fun n => (n : Int))

/-- Decimal rendering of a natural number, Python `str(n)`. -/
def natToStr (n : Nat) : String := ⟨Nat.toDigits 10 n⟩

/-- Uppercase an ASCII letter, Python `str.upper` per character. -/
def upChar (c : Char) : Char :=
  if 97 ≤ c.toNat ∧ c.toNat ≤ 122 then Char.ofNat (c.toNat - 32) else c

/-- Python `dbName[:3].upper()`: the database abbreviation used by
`combineOverlaps`/`findOverlaps`. -/
def dbAbbrOf (dbName : String) : String := ⟨(dbName.data.take 3).map upChar⟩

/-! ### Data model

One extracted record (`procDict[dbId]` in `processDatabase`): the
canonical key fields consumed by the engine.  The pass-through fields
(author display names, full title, raw row) do not influence any claim
and are omitted. -/

structure Entry where
  id : String
  pmid : String
  authorKey : String
  titleMin : String
  journalKey : String
deriving DecidableEq

/-! ### Key indexing (`processDatabase` dictionary loop, `globalMatcher`)

A key index maps a key value to its bucket of record ids (see the
conventions above for the semicolon-joined representation). -/

abbrev KeyIndex := String → List String

/-- The dictionary update `if key in d: d[key] += ';' + id else: d[key] = id`,
which in the list representation is an unconditional append. -/
def addToBucket (idx : KeyIndex) (key theId : String) : KeyIndex :=
  fun k => if k = key then idx k ++ [theId] else idx k

/-- The four global dictionaries threaded through `globalMatcher`. -/
structure GlobalIndexes where
  pmidIdx : KeyIndex
  authorIdx : KeyIndex
  titleIdx : KeyIndex
  journalIdx : KeyIndex

def emptyIndexes : GlobalIndexes :=
  ⟨fun _ => [], fun _ => [], fun _ => [], fun _ => []⟩

/-- `globalMatcher` (extractor.py 615-664): record the four key values of
one record in the four dictionaries.  Note there is no sentinel filter:
every value, `"NoPMID"`/`"."`/`"NoYear"` included, is recorded. -/
def globalMatcher (idHere pmid authorKey titleMin journalKey : String)
    (g : GlobalIndexes) : GlobalIndexes :=
  { pmidIdx := addToBucket g.pmidIdx pmid idHere
    authorIdx := addToBucket g.authorIdx authorKey idHere
    titleIdx := addToBucket g.titleIdx titleMin idHere
    journalIdx := addToBucket g.journalIdx journalKey idHere }

/-- The dictionary-filling loop of `processDatabase` (extractor.py
705-748) applied to a list of extracted records: each record's key
values are recorded in order.  The same fold builds the per-source
dictionaries (over one source's records) and, via `globalMatcher`, the
global dictionaries (over all sources' records in ingestion order). -/
def ingestAll (recs : List Entry) (g : GlobalIndexes) : GlobalIndexes :=
  recs.foldl
    (fun acc r => globalMatcher r.id r.pmid r.authorKey r.titleMin r.journalKey acc) g

/-- The global key index over all ingested records. -/
def globalIndexes (recs : List Entry) : GlobalIndexes := ingestAll recs emptyIndexes

/-! ### Match-closure engine (`matchListMaker`, `getDetails`, the
expansion loop of `findOverlaps`, overlapper.py 336-402 and 1082-1109) -/

/-- Add every id of a bucket to the member list, in bucket order,
skipping ids already present: the dict-key semantics of
`matchKeyDict[theIdMatch] = 5`. -/
def addBucket (bucket members : List String) : List String :=
  bucket.foldl (fun ms i => if i ∈ ms then ms else ms ++ [i]) members

/-- `matchListMaker` (overlapper.py 336-380).  A bucket fires only when
the key value is non-sentinel and the bucket holds at least two ids
(`';' in dict[v]`).  The `basisDict` output is diagnostic only (it feeds
the `Similarity` display column) and is not modelled. -/
def matchListMaker (pmidHere authorKeyHere titleMinHere : String)
    (g : GlobalIndexes) (members : List String) : List String :=
  let m1 :=
    if pmidHere ≠ "NoPMID" ∧ pmidHere ≠ "." ∧ 2 ≤ (g.pmidIdx pmidHere).length then
      addBucket (g.pmidIdx pmidHere) members
    else members
  let m2 :=
    if authorKeyHere ≠ "." ∧ 2 ≤ (g.authorIdx authorKeyHere).length then
      addBucket (g.authorIdx authorKeyHere) m1
    else m1
  if titleMinHere ≠ "." ∧ 2 ≤ (g.titleIdx titleMinHere).length then
    addBucket (g.titleIdx titleMinHere) m2
  else m2

/-- `getDetails` (overlapper.py 383-402): the pmid/authorKey/titleMin of
the first record carrying the given id, defaulting to the `"."`
sentinels when no database holds the id. -/
def getDetails (extraId : String) (dbs : List Entry) : String × String × String :=
  match dbs.find? (fun r => r.id = extraId) with
  | some r => (r.pmid, r.authorKey, r.titleMin)
  | none => (".", ".", ".")

/-- One pass of the expansion loop (overlapper.py 1093-1104): every id of
the current member snapshot other than the seed is looked up and its
buckets merged in.  The accumulating dict is threaded left to right. -/
def expandOnce (g : GlobalIndexes) (dbs : List Entry) (seedId : String)
    (members : List String) : List String :=
  members.foldl
    (fun ms extraId =>
      if extraId = seedId then ms
      else
        let d := getDetails extraId dbs
        matchListMaker d.1 d.2.1 d.2.2 g ms)
    members

/-- The `while end == 0` fixed-point loop (overlapper.py 1093-1109):
repeat passes until a full pass leaves the member-dict length unchanged.
The fuel argument bounds the iteration count; `closureOf` supplies
enough fuel for the loop to reach its fixed point, mirroring the
unbounded Python loop. -/
def expandLoop (g : GlobalIndexes) (dbs : List Entry) (seedId : String) :
    Nat → List String → List String
  | 0, ms => ms
  | n + 1, ms =>
    let ms2 := expandOnce g dbs seedId ms
    if ms2.length = ms.length then ms else expandLoop g dbs seedId n ms2

/-- The full match closure computed by `findOverlaps` for one seed
record: the seed step through `matchListMaker` on the seed's own keys,
then expansion to the fixed point. -/
def closureOf (g : GlobalIndexes) (dbs : List Entry) (seed : Entry) : List String :=
  expandLoop g dbs seed.id (dbs.length + 1)
    (matchListMaker seed.pmid seed.authorKey seed.titleMin g [])

/-! ### The match graph (specification side)

Two records are joined when they share an equal non-sentinel key value;
the component of the seed is the reflexive-transitive closure of this
adjacency, the notion the spec's guarantee speaks about. -/

/-- Two records share a non-sentinel key value. -/
def sharesKey (r s : Entry) : Prop :=
  (r.pmid = s.pmid ∧ r.pmid ≠ "NoPMID" ∧ r.pmid ≠ ".") ∨
  (r.authorKey = s.authorKey ∧ r.authorKey ≠ ".") ∨
  (r.titleMin = s.titleMin ∧ r.titleMin ≠ ".")

instance : DecidablePred (fun p : Entry × Entry => sharesKey p.1 p.2) := by
  intro p; unfold sharesKey; infer_instance

/-- Edge of the match graph between two distinct ingested record ids. -/
def adjacent (dbs : List Entry) (a b : String) : Prop :=
  a ≠ b ∧ ∃ r ∈ dbs, ∃ s ∈ dbs, r.id = a ∧ s.id = b ∧ sharesKey r s

/-- Connectivity in the match graph. -/
def reaches (dbs : List Entry) : String → String → Prop :=
  Relation.ReflTransGen (adjacent dbs)

/-- The three key types `matchListMaker` consults, used to state the
bucket lemmas uniformly. -/
inductive MatchKey where
  | pmid
  | author
  | title
deriving DecidableEq

/-- The key value of a record for a key type. -/
def keyVal : MatchKey → Entry → String
  | .pmid, r => r.pmid
  | .author, r => r.authorKey
  | .title, r => r.titleMin

/-- The dictionary consulted for a key type. -/
def keyIdx : MatchKey → GlobalIndexes → KeyIndex
  | .pmid, g => g.pmidIdx
  | .author, g => g.authorIdx
  | .title, g => g.titleIdx

/-- The non-sentinel condition `matchListMaker` applies to a key value
of the given type. -/
def keyOk : MatchKey → String → Prop
  | .pmid, v => v ≠ "NoPMID" ∧ v ≠ "."
  | .author, v => v ≠ "."
  | .title, v => v ≠ "."

/-- Select one of three key values by key type. -/
def tripleVal : MatchKey → String → String → String → String
  | .pmid, p, _, _ => p
  | .author, _, a, _ => a
  | .title, _, _, t => t

/-- The key value `getDetails` reports for an id, by key type. -/
def detailsVal (k : MatchKey) (y : String) (dbs : List Entry) : String :=
  tripleVal k (getDetails y dbs).1 (getDetails y dbs).2.1 (getDetails y dbs).2.2

/-- A bucket fires in `matchListMaker`: non-sentinel key value and at
least two ids in the bucket. -/
def fires (g : GlobalIndexes) (k : MatchKey) (v : String) : Prop :=
  keyOk k v ∧ 2 ≤ (keyIdx k g v).length

/-- `x` is among the ids the expansion step adds when it looks up
member `y`: some bucket of `y`'s reported key values fires and contains
`x`. -/
def expandAdds (g : GlobalIndexes) (dbs : List Entry) (y x : String) : Prop :=
  ∃ k, fires g k (detailsVal k y dbs) ∧ x ∈ keyIdx k g (detailsVal k y dbs)

/-! ### Group assignment (`findGroups`, overlapper.py 405-439)

The Python function returns the `';'`-joined co-member string (`'.'`
when there is no match), the basis display string (not modelled), the
group number (`'.'` or an int, modelled as `Option Nat`), the updated
counter and the updated memo.  The memo keys are the signature strings
`';'.join(sorted(matchKeyDict.keys()))`; keys are inserted at most once,
so a cons-list with first-match lookup is a faithful dictionary. -/

/-- Dictionary lookup in the signature memo. -/
def lookupMemo (sig : String) : List (String × Nat) → Option Nat
  | [] => none
  | (s, gnum) :: rest => if s = sig then some gnum else lookupMemo sig rest

/-- `findGroups`: signature of the member set, memoized dense numbering.
Returns (co-members other than `theId`, group number, counter, memo). -/
def findGroups (theId : String) (members : List String) (matchCount : Nat)
    (matchGroup : List (String × Nat)) :
    List String × Option Nat × Nat × List (String × Nat) :=
  if 1 < members.length then
    let possibleMatch := members.filter (fun x => x ≠ theId)
    let sig := joinSemi (sortIds members)
    match lookupMemo sig matchGroup with
    | some gnum => (possibleMatch, some gnum, matchCount, matchGroup)
    | none =>
      (possibleMatch, some (matchCount + 1), matchCount + 1, (sig, matchCount + 1) :: matchGroup)
  else ([], none, matchCount, matchGroup)

/-! ### Pairwise scoring (`subGroupV2` distance computation,
overlapper.py 702-809)

Everything is parametrised by `dl`, the model of
`jellyfish.damerau_levenshtein_distance` (see the header).  A `none`
result is an escaped Python exception (`ZeroDivisionError`). -/

/-- Title contribution (overlapper.py 716-720): weighted normalized edit
distance out of 30.  The division is unguarded in the source: when both
title signatures are empty the denominator is zero and Python raises
`ZeroDivisionError`. -/
def titleTerm (dl : String → String → Nat) (t1 t2 : String) : Option Int :=
  if t1.length + t2.length = 0 then none
  else some ((30 : Int) - ((dl t1 t2 * 30) / (t1.length + t2.length) : Nat))

/-- Journal contribution (overlapper.py 722-733): defaults to the full
weight 20, which is kept when both journal keys are falsy (empty);
weighted normalized edit distance when both are present; 0 when exactly
one is present.  The division is guarded by both keys being non-empty. -/
def journalTerm (dl : String → String → Nat) (j1 j2 : String) : Int :=
  if j1 ≠ "" ∧ j2 ≠ "" then (20 : Int) - ((dl j1 j2 * 20) / (j1.length + j2.length) : Nat)
  else if j1 ≠ "" ∨ j2 ≠ "" then 0
  else 20

/-- Year contribution (overlapper.py 742-759).  The source checks string
equality first, then the sentinels, then integer proximity inside a
`try` whose `ValueError` handler leaves `yearDist = 0`. -/
def yearTerm (y1 y2 : String) : Int :=
  if y1 = y2 then 20
  else if y1 = "NoYear" ∨ y2 = "NoYear" ∨ y1 = "." ∨ y2 = "." then 0
  else
    match pyInt y1, pyInt y2 with
    | some a, some b =>
      if a - 1 = b ∨ a + 1 = b then 16
      else if a - 2 = b ∨ a + 2 = b then 12
      else 0
    | _, _ => 0

/-- One author-to-author weight (overlapper.py 783-788):
`factor - int(dist / (len + len) * factor)`; a zero denominator (both
names empty) raises in Python. -/
def authorPairWeight (dl : String → String → Nat) (factor : Nat) (x y : String) : Option Int :=
  if x.length + y.length = 0 then none
  else some ((factor : Int) - ((dl x y * factor) / (x.length + y.length) : Nat))

/-- Best-matching side-2 author for one side-1 author (overlapper.py
777-791): running maximum over the side-2 list, starting from 0, taking
a new value only on strict improvement. -/
def bestMatch (dl : String → String → Nat) (factor : Nat) (x : String) :
    List String → Int → Option Int
  | [], h => some h
  | y :: ys, h =>
    match authorPairWeight dl factor x y with
    | none => none
    | some w => bestMatch dl factor x ys (if h < w then w else h)

/-- Sum of the best-match scores over the side-1 authors (overlapper.py
776-795).  The `authorUsed` bookkeeping in the source never influences
the scores (the membership test that would consult it is commented out)
and is omitted. -/
def authorSum (dl : String → String → Nat) (factor : Nat) (a2 : List String) :
    List String → Int → Option Int
  | [], acc => some acc
  | x :: xs, acc =>
    match bestMatch dl factor x a2 0 with
    | none => none
    | some b => authorSum dl factor a2 xs (acc + b)

/-- Author contribution (overlapper.py 761-795): close joint match uses
the combined distance, otherwise greedy per-author best matching with
`factor = 30 / len(aOneList)` (for two or more side-1 authors). -/
def authorTerm (dl : String → String → Nat) (a1 a2 : List String) : Option Int :=
  let d := dl (pyJoin a1) (pyJoin a2)
  if d ≤ 5 then some ((30 : Int) - (d : Nat))
  else
    let factor : Nat := if 2 ≤ a1.length then 30 / a1.length else 30
    authorSum dl factor a2 a1 0

/-- Split an author key into its author fields and its trailing year
field (overlapper.py 736-740): `aOneList = aOne.split('|')`,
`aOneYear = aOneList.pop()`.  A split is never empty, so the `"."`
default of `getLastD` is never used. -/
def splitAuthorKey (a : String) : List String × String :=
  let parts := pySplit '|' a
  (parts.dropLast, parts.getLastD ".")

/-- The weighted heuristic (overlapper.py 713-800): title + journal +
year + author, evaluated in source order; a `none` anywhere is the
escaped exception. -/
def weightedScore (dl : String → String → Nat) (e1 e2 : Entry) : Option Int :=
  match titleTerm dl e1.titleMin e2.titleMin with
  | none => none
  | some t =>
    let j := journalTerm dl e1.journalKey e2.journalKey
    let p1 := splitAuthorKey e1.authorKey
    let p2 := splitAuthorKey e2.authorKey
    let y := yearTerm p1.2 p2.2
    match authorTerm dl p1.1 p2.1 with
    | none => none
    | some a => some (t + j + y + a)

/-- The full pairwise score (overlapper.py 702-800): the PMID gate
decides 100 / 0 outright, and the internal 9999 "unknown" sentinel is
replaced by the weighted heuristic before anything is stored. -/
def pairScore (dl : String → String → Nat) (e1 e2 : Entry) : Option Int :=
  if e1.pmid = e2.pmid ∧ e1.pmid ≠ "NoPMID" then some 100
  else if e1.pmid = "NoPMID" ∨ e2.pmid = "NoPMID" then weightedScore dl e1 e2
  else some 0

/-! ### The distance cache phase of `subGroupV2` (overlapper.py 684-809) -/

/-- The nested distance dictionary `idToDistance`. -/
abbrev DistMap := String → String → Option Int

/-- Store one directed distance entry. -/
def setDist (m : DistMap) (a b : String) (v : Int) : DistMap :=
  fun x y => if x = a ∧ y = b then some v else m x y

/-- The initialisation loop `idToDistance[idName] = {}` for every member
(overlapper.py 685-686): wipe the rows of the component's members. -/
def resetRows (idList : List String) (m : DistMap) : DistMap :=
  fun x y => if x ∈ idList then none else m x y

/-- Inner loop over `idNameTwo` (overlapper.py 696-809) for a fixed
`idNameOne` with record `e1`: compute and store each missing pair both
ways, logging the pairs whose score is computed.  A member id absent
from every database dict is a Python `KeyError` (`none`), as is an
escaped scoring exception. -/
def distInner (dl : String → String → Nat) (dbs : List Entry) (a : String) (e1 : Entry) :
    List String → DistMap → List (String × String) →
    Option (DistMap × List (String × String))
  | [], m, log => some (m, log)
  | b :: bs, m, log =>
    if (m a b).isNone ∧ a ≠ b then
      match dbs.find? (fun r => r.id = b) with
      | none => none
      | some e2 =>
        match pairScore dl e1 e2 with
        | none => none
        | some v =>
          distInner dl dbs a e1 bs (setDist (setDist m a b v) b a v) (log ++ [(a, b)])
    else distInner dl dbs a e1 bs m log

/-- Outer loop over `idNameOne` (overlapper.py 690-809). -/
def distOuter (dl : String → String → Nat) (dbs : List Entry) (idList : List String) :
    List String → DistMap → List (String × String) →
    Option (DistMap × List (String × String))
  | [], m, log => some (m, log)
  | a :: as, m, log =>
    match dbs.find? (fun r => r.id = a) with
    | none => none
    | some e1 =>
      match distInner dl dbs a e1 idList m log with
      | none => none
      | some (m2, log2) => distOuter dl dbs idList as m2 log2

/-- The whole distance phase: wipe the member rows, then fill every pair.
The log records each pair whose score computation actually ran. -/
def distancePhase (dl : String → String → Nat) (dbs : List Entry) (idList : List String)
    (m : DistMap) (log : List (String × String)) :
    Option (DistMap × List (String × String)) :=
  distOuter dl dbs idList idList (resetRows idList m) log

/-! ### The clustering pass of `subGroupV2` (overlapper.py 811-848)

State of the pass: the persistent maps `idToSubgroup` and
`subgroupToId` (the latter's semicolon-joined value strings are
represented as id lists, as for the key indexes), the local variable
`nextGroup` (unbound before the first subgroup creation — reading it
then is a Python `UnboundLocalError`, modelled `none`), and the local
counter `groupNum` (initialised to 0). -/

structure ClusterSt where
  i2s : String → Option String
  s2i : String → Option (List String)
  nextGroup : Option String
  groupNum : Nat

/-- Dictionary update for `Option`-valued maps. -/
def updMap {α : Type} (f : String → Option α) (k : String) (v : α) : String → Option α :=
  fun x => if x = k then some v else f x

/-- `getSubgroupNum` (overlapper.py 631-645) name part:
`f'{matchGroupOut}.{groupNum}'` with the current counter. -/
def subgroupName (mg : Nat) (n : Nat) : String := natToStr mg ++ "." ++ natToStr n

/-- One iteration of the pair loop (overlapper.py 812-839): skip equal
ids and already-assigned pairs, and for a score of at least 90 either
extend the assigned side's subgroup or create a new subgroup of the two.
Note the source appends the newly added member to
`subgroupToId[nextGroup]` — the most recently created subgroup — rather
than to the bucket of the subgroup the member just joined. -/
def pairStep (mg : Nat) (dmap : DistMap) (st : ClusterSt) (a b : String) : Option ClusterSt :=
  if a = b then some st
  else if (st.i2s a).isSome ∧ (st.i2s b).isSome then some st
  else
    match dmap a b with
    | none => none
    | some d =>
      if 90 ≤ d then
        match st.i2s a with
        | some ga =>
          match st.nextGroup with
          | none => none
          | some ng =>
            match st.s2i ng with
            | none => none
            | some bucket =>
              some { st with i2s := updMap st.i2s b ga, s2i := updMap st.s2i ng (bucket ++ [b]) }
        | none =>
          match st.i2s b with
          | some gb =>
            match st.nextGroup with
            | none => none
            | some ng =>
              match st.s2i ng with
              | none => none
              | some bucket =>
                some { st with i2s := updMap st.i2s a gb, s2i := updMap st.s2i ng (bucket ++ [a]) }
          | none =>
            let ng := subgroupName mg st.groupNum
            some { i2s := updMap (updMap st.i2s a ng) b ng
                   s2i := updMap st.s2i ng [a, b]
                   nextGroup := some ng
                   groupNum := st.groupNum + 1 }
      else some st

/-- The inner `for idNameTwo in idList` loop. -/
def passInner (mg : Nat) (dmap : DistMap) (a : String) :
    List String → ClusterSt → Option ClusterSt
  | [], st => some st
  | b :: bs, st =>
    match pairStep mg dmap st a b with
    | none => none
    | some st2 => passInner mg dmap a bs st2

/-- The outer `for idNameOne in idList` loop: a single left-to-right
pass over the full `idList × idList` product in the order the member
dict was built. -/
def passOuter (mg : Nat) (dmap : DistMap) (idList : List String) :
    List String → ClusterSt → Option ClusterSt
  | [], st => some st
  | a :: as, st =>
    match passInner mg dmap a idList st with
    | none => none
    | some st2 => passOuter mg dmap idList as st2

/-- The trailing loop (overlapper.py 842-846): every still-unassigned
member receives a fresh singleton subgroup. -/
def singletonPhase (mg : Nat) : List String → ClusterSt → ClusterSt
  | [], st => st
  | a :: as, st =>
    if (st.i2s a).isSome then singletonPhase mg as st
    else
      let ng := subgroupName mg st.groupNum
      singletonPhase mg as
        { st with i2s := updMap st.i2s a ng, s2i := updMap st.s2i ng [a]
                  nextGroup := some ng, groupNum := st.groupNum + 1 }

/-! ### `subGroupV2` assembled (overlapper.py 648-848) -/

/-- The engine state shared across `subGroupV2` calls: `idToGroup`
(value: the component's member list; the `'.'` sentinel entry is the
one-element list `["."]`, its Python `split(';')` image),
`idToSubgroup`, `subgroupToId`, `idToDistance`, plus the computation log
used to count distance computations. -/
structure OverlapSt where
  i2g : String → Option (List String)
  i2s : String → Option String
  s2i : String → Option (List String)
  dist : DistMap
  distLog : List (String × String)

/-- `subGroupV2`: record the component in `idToGroup`, run the distance
phase, the pair pass (with `groupNum = 0` and `nextGroup` unbound), and
the singleton sweep. -/
def subGroupV2 (dl : String → String → Nat) (dbs : List Entry) (idList : List String)
    (mg : Nat) (st : OverlapSt) : Option OverlapSt :=
  let i2g2 := idList.foldl (fun f i => updMap f i idList) st.i2g
  match distancePhase dl dbs idList st.dist st.distLog with
  | none => none
  | some (dist2, log2) =>
    match passOuter mg dist2 idList idList ⟨st.i2s, st.s2i, none, 0⟩ with
    | none => none
    | some cst =>
      let cst2 := singletonPhase mg idList cst
      some ⟨i2g2, cst2.i2s, cst2.s2i, dist2, log2⟩

/-! ### `findOverlaps` (overlapper.py 1041-1201) and
`combineOverlaps` (extractor.py 228-268)

The output row keeps the claim-relevant fields: id, group, subgroup and
the two distance-annotated co-member lists (whose construction performs
the dictionary lookups claim C10 is about).  The remaining display
columns (`Grp_Size`, per-source tallies, `MainRecord`, pass-through
fields) are pure string formatting over these and are omitted. -/

structure Row where
  paperId : String
  group : Option Nat
  subgrp : String
  similarity : List (String × Int)
  similar : List (String × Int)
deriving DecidableEq

structure FullSt where
  memo : List (String × Nat)
  count : Nat
  over : OverlapSt
  rows : List Row

/-- The subgroup co-member loop (overlapper.py 1130-1138): every listed
id other than the record itself and the empty string, annotated with its
cached distance; a missing distance entry is a Python `KeyError`. -/
def collectSub (dmap : DistMap) (medId : String) :
    List String → Option (List (String × Int))
  | [] => some []
  | idName :: rest =>
    if idName ≠ medId ∧ idName ≠ "" then
      match dmap medId idName with
      | none => none
      | some v =>
        match collectSub dmap medId rest with
        | none => none
        | some l => some ((idName, v) :: l)
    else collectSub dmap medId rest

/-- The group co-member loop (overlapper.py 1148-1156), which skips the
`"."` sentinel instead of the empty string. -/
def collectGrp (dmap : DistMap) (medId : String) :
    List String → Option (List (String × Int))
  | [] => some []
  | idName :: rest =>
    if idName ≠ medId ∧ idName ≠ "." then
      match dmap medId idName with
      | none => none
      | some v =>
        match collectGrp dmap medId rest with
        | none => none
        | some l => some ((idName, v) :: l)
    else collectGrp dmap medId rest

/-- `group, sub = matchSubGroupOut.split('.')` with
`group = int(group) if group else None` and `if not sub: sub = '0'`
(overlapper.py 1142-1145).  A split arity other than two or a failing
`int` is an escaped exception. -/
def splitGroupSub (s : String) : Option (Option Nat × String) :=
  match pySplit '.' s with
  | [gpart, subpart] =>
    let subOut := if subpart = "" then "0" else subpart
    if gpart = "" then some (none, subOut)
    else
      match digitsToNat gpart.data with
      | none => none
      | some n => some (some n, subOut)
  | _ => none

/-- Processing of a single record inside `findOverlaps`' main loop
(overlapper.py 1074-1200): unless the record belongs to the hardcoded
`'MED'` source and is already assigned, run the closure, the group
assignment and `subGroupV2` (or store the `'.'` sentinels when there is
no match); then assemble the output row through the subgroup and group
lookups. -/
def processRecord (dl : String → String → Nat) (dbs : List Entry) (g : GlobalIndexes)
    (dbAbbr : String) (st : FullSt) (e : Entry) : Option FullSt :=
  let medId := e.id
  let st1? : Option FullSt :=
    if dbAbbr ≠ "MED" ∨ (st.over.i2s medId).isNone then
      let members := closureOf g dbs e
      let fg := findGroups medId members st.count st.memo
      match fg.2.1 with
      | some mg =>
        match subGroupV2 dl dbs members mg st.over with
        | none => none
        | some over2 => some ⟨fg.2.2.2, fg.2.2.1, over2, st.rows⟩
      | none =>
        some ⟨fg.2.2.2, fg.2.2.1,
          { st.over with
            i2s := updMap st.over.i2s medId "."
            i2g := updMap st.over.i2g medId ["."] },
          st.rows⟩
    else some st
  match st1? with
  | none => none
  | some st1 =>
    match st1.over.i2s medId with
    | none => none
    | some sub =>
      match st1.over.s2i sub with
      | none => none
      | some bucket =>
        match collectSub st1.over.dist medId bucket with
        | none => none
        | some matchSubL =>
          match splitGroupSub sub with
          | none => none
          | some gs =>
            match st1.over.i2g medId with
            | none => none
            | some grpList =>
              match collectGrp st1.over.dist medId grpList with
              | none => none
              | some similL =>
                some { st1 with
                  rows := st1.rows ++ [⟨medId, gs.1, gs.2, matchSubL, similL⟩] }

/-- The clustering stage of one record of `findOverlaps` (overlapper.py
1074-1116): everything before the output-row assembly.  `processRecord`
is definitionally this stage followed by the row assembly. -/
def clusterStage (dl : String → String → Nat) (dbs : List Entry) (g : GlobalIndexes)
    (dbAbbr : String) (st : FullSt) (e : Entry) : Option FullSt :=
  if dbAbbr ≠ "MED" ∨ (st.over.i2s e.id).isNone then
    let members := closureOf g dbs e
    let fg := findGroups e.id members st.count st.memo
    match fg.2.1 with
    | some mg =>
      match subGroupV2 dl dbs members mg st.over with
      | none => none
      | some over2 => some ⟨fg.2.2.2, fg.2.2.1, over2, st.rows⟩
    | none =>
      some ⟨fg.2.2.2, fg.2.2.1,
        { st.over with
          i2s := updMap st.over.i2s e.id "."
          i2g := updMap st.over.i2g e.id ["."] },
        st.rows⟩
  else some st

/-- `findOverlaps` over one source's records in their stored order. -/
def findOverlaps (dl : String → String → Nat) (dbs : List Entry) (g : GlobalIndexes)
    (dbAbbr : String) : List Entry → FullSt → Option FullSt
  | [], st => some st
  | e :: rest, st =>
    match processRecord dl dbs g dbAbbr st e with
    | none => none
    | some st2 => findOverlaps dl dbs g dbAbbr rest st2

/-- The per-source loop of `combineOverlaps` (extractor.py 252-258). -/
def combineAux (dl : String → String → Nat) (dbs : List Entry) (g : GlobalIndexes) :
    List (String × List Entry) → FullSt → Option FullSt
  | [], st => some st
  | (dbName, recs) :: rest, st =>
    match findOverlaps dl dbs g (dbAbbrOf dbName) recs st with
    | none => none
    | some st2 => combineAux dl dbs g rest st2

/-- The initial engine state of `combineOverlaps` (extractor.py
244-250); `subgroupToId` starts as `{'.': ''}`, whose value splits to no
usable co-member. -/
def initSt : FullSt :=
  ⟨[], 0,
    ⟨fun _ => none, fun _ => none, fun s => if s = "." then some [] else none,
     fun _ _ => none, []⟩,
    []⟩

/-- Everything `combineOverlaps` does before the final sort: ingest all
sources into the global index (done upstream by `processDatabase` /
`globalMatcher` during extraction) and run `findOverlaps` per source. -/
def combineOverlapsRun (dl : String → String → Nat) (sources : List (String × List Entry)) :
    Option FullSt :=
  let dbs := (sources.map Prod.snd).flatten
  combineAux dl dbs (globalIndexes dbs) sources initSt

/-- Row ordering of `df.sort_values(['Group', 'Subgrp'])`: by group
number ascending with ungrouped (`None`) rows last — pandas places NaN
keys last — then by the subgroup string. -/
def rowLe (r1 r2 : Row) : Bool :=
  match r1.group, r2.group with
  | none, none => strLe r1.subgrp r2.subgrp
  | none, some _ => false
  | some _, none => true
  | some g1, some g2 =>
    if g1 < g2 then true else if g2 < g1 then false else strLe r1.subgrp r2.subgrp

/-- Propositional form of `rowLe`. -/
def RowLe (r1 r2 : Row) : Prop := rowLe r1 r2 = true

instance : DecidableRel RowLe := fun a b => instDecidableEqBool (rowLe a b) true

/-- A row of the final table with the `Group` column rendered as a
string (`df.fillna('none')` and the string conversion, extractor.py
264-265). -/
structure RenderedRow where
  paperId : String
  group : Option Nat
  groupStr : String
  subgrp : String
deriving DecidableEq

/-- Render one row: ungrouped becomes the string `"none"`. -/
def renderRow (r : Row) : RenderedRow :=
  ⟨r.paperId, r.group,
   match r.group with
   | none => "none"
   | some gnum => natToStr gnum,
   r.subgrp⟩

/-- `combineOverlaps` (extractor.py 228-268): run the engine over every
source, sort the rows by (Group, Subgrp) with ungrouped rows last, and
render the group column.  `none` when the run raises. -/
def combineOverlaps (dl : String → String → Nat) (sources : List (String × List Entry)) :
    Option (List RenderedRow) :=
  match combineOverlapsRun dl sources with
  | none => none
  | some st => some ((List.insertionSort RowLe st.rows).map renderRow)

/-- Occurrences of an unordered pair in the distance-computation log. -/
def countPair (log : List (String × String)) (a b : String) : Nat :=
  (log.filter (fun p => p = (a, b) ∨ p = (b, a))).length

/-! ### Auxiliary specification-side definitions -/

/-- The Damerau–Levenshtein bound used as a hypothesis where a claim
needs it: the distance never exceeds the longer input. -/
def DlBound (dl : String → String → Nat) : Prop :=
  ∀ s t : String, dl s t ≤ max s.length t.length

/-- A concrete stand-in for the external edit-distance function, used
only to instantiate witnesses; it satisfies `DlBound`. -/
def dlStub : String → String → Nat :=
  fun s t => if s = t then 0 else max s.length t.length

/-- Ordering on rendered rows by the same (Group, Subgrp) key as
`rowLe`. -/
def rrowLe (r1 r2 : RenderedRow) : Bool :=
  match r1.group, r2.group with
  | none, none => strLe r1.subgrp r2.subgrp
  | none, some _ => false
  | some _, none => true
  | some g1, some g2 =>
    if g1 < g2 then true else if g2 < g1 then false else strLe r1.subgrp r2.subgrp

/-- Propositional form of `rrowLe`. -/
def RRowLe (r1 r2 : RenderedRow) : Prop := rrowLe r1 r2 = true

/-- A run of group assignments: `findGroups` folded over a sequence of
(record id, member list) queries, threading counter and memo exactly as
`findOverlaps` threads `globalmatchCount` and `matchGroupNew`. -/
def runGroups : List (String × List String) → Nat × List (String × Nat) →
    Nat × List (String × Nat)
  | [], st => st
  | (theId, members) :: rest, st =>
    let fg := findGroups theId members st.1 st.2
    runGroups rest (fg.2.2.1, fg.2.2.2)

/-- Invariant relating the subgroup maps: the `'.'` fallback bucket
exists and every assigned subgroup id is a key of `subgroupToId`. -/
def OverInv (st : OverlapSt) : Prop :=
  (st.s2i ".").isSome ∧ ∀ i s, st.i2s i = some s → (st.s2i s).isSome

/-- Invariant for the clustering pass on a fresh component: while no
subgroup has been created in this call, no member is assigned, and once
`nextGroup` is bound its bucket exists. -/
def PassInv (idList : List String) (st : ClusterSt) : Prop :=
  (st.nextGroup = none → ∀ a ∈ idList, st.i2s a = none) ∧
  (∀ ng, st.nextGroup = some ng → (st.s2i ng).isSome)

/-! #### Concrete fixtures for witnesses and counterexamples -/

/-- A single ingested record with a unique PMID: an isolated seed. -/
def soloEntry : Entry := ⟨"MED_00001", "999", "x|none|y|2019", "t_u_v", "abc"⟩

/-- Chain fixture (spec scenario 4): A and B share a PMID, B and C share
a title while their PMIDs differ, A and C share no key. -/
def chainA : Entry := ⟨"MED_00001", "111", "a|none|b|2010", "t_one", "j"⟩

def chainB : Entry := ⟨"MED_00002", "111", "c|none|d|2011", "t_shared", "j"⟩

def chainC : Entry := ⟨"MED_00003", "222", "e|none|f|2012", "t_shared", "j"⟩

def chainDb : List Entry := [chainA, chainB, chainC]

/-- Two-source fixture: one Medline and one Embase record sharing a
PMID.  The global PMID bucket lists the Medline id first, so the
discovered member list is not in sorted order. -/
def crossMed : Entry := ⟨"MED_00001", "777", "m|none|n|2000", "mt", "j"⟩

def crossEmb : Entry := ⟨"EMB_00001", "777", "p|none|q|2001", "et", "j"⟩

def crossDb : List Entry := [crossMed, crossEmb]

/-- Embase-only source fixture: two records sharing a PMID, processed
under the `'EMB'` abbreviation, so the second record recomputes the
whole component. -/
def embOne : Entry := ⟨"EMB_00001", "555", "a|none|b|1999", "ta", "j"⟩

def embTwo : Entry := ⟨"EMB_00002", "555", "c|none|d|1998", "tb", "j2"⟩

def embSources : List (String × List Entry) := [("Embase", [embOne, embTwo])]

/-- Medline-only source fixture: two records sharing a PMID. -/
def medOne : Entry := ⟨"MED_00001", "12345", "smith|none|jones|2019", "a_title_here", "jexp"⟩

def medTwo : Entry := ⟨"MED_00002", "12345", "other|none|auth|2018", "other_title", "jexp2"⟩

def medSources : List (String × List Entry) := [("Medline", [medOne, medTwo])]

/-- Synthetic component for the clustering-order counterexample: the
pairs (A,B), (C,D) and (B,C) score 95, all other pairs 0. -/
def synPairs : List (String × String) := [("A", "B"), ("C", "D"), ("B", "C")]

/-- Synthetic symmetric distance map realising `synPairs`. -/
def synDist : DistMap :=
  fun a b =>
    if (a, b) ∈ synPairs ∨ (b, a) ∈ synPairs then some 95
    else if a = b then none
    else some 0

/-- Run the clustering pass and singleton sweep of `subGroupV2` on a
member list with a given distance map, from a fresh state whose only
subgroup key is the `'.'` fallback. -/
def runPass (dmap : DistMap) (l : List String) : Option ClusterSt :=
  (passOuter 1 dmap l l
    ⟨fun _ => none, fun s => if s = "." then some [] else none, none, 0⟩).map
    (singletonPhase 1 l)

/-- The unsorted discovery order used in the clustering-order
counterexample. -/
def synOrder : List String := ["A", "E", "C", "D", "B"]

/-! ## Lemmas -/

/-! ### The string order -/

theorem charToNat_inj {a b : Char} (h : a.toNat = b.toNat) : a = b :=
  Char.eq_of_val_eq (UInt32.ext h)

theorem lexLe_refl (l : List Char) : lexLe l l = true := by
  induction l with
  | nil => rfl
  | cons a as ih => simp [lexLe, Nat.lt_irrefl, ih]

theorem lexLe_total (l1 l2 : List Char) : lexLe l1 l2 = true ∨ lexLe l2 l1 = true := by
  induction l1 generalizing l2 with
  | nil => left; rfl
  | cons a as ih =>
    cases l2 with
    | nil => right; rfl
    | cons b bs =>
      rcases Nat.lt_trichotomy a.toNat b.toNat with h | h | h
      · left; simp [lexLe, h]
      · have hne : ¬ a.toNat < b.toNat := by omega
        have hne2 : ¬ b.toNat < a.toNat := by omega
        rcases ih bs with h2 | h2
        · left; simp [lexLe, hne, hne2, h2]
        · right; simp [lexLe, hne, hne2, h2]
      · right; simp [lexLe, h]

theorem lexLe_cons_iff {a b : Char} {as bs : List Char} :
    lexLe (a :: as) (b :: bs) = true ↔
      a.toNat < b.toNat ∨ (a.toNat = b.toNat ∧ lexLe as bs = true) := by
  by_cases h1 : a.toNat < b.toNat
  · simp [lexLe, h1]
  · by_cases h2 : b.toNat < a.toNat
    · simp [lexLe, h1, h2]
      omega
    · have h3 : a.toNat = b.toNat := by omega
      simp [lexLe, h1, h2, h3]

theorem lexLe_trans {l1 l2 l3 : List Char} (h12 : lexLe l1 l2 = true)
    (h23 : lexLe l2 l3 = true) : lexLe l1 l3 = true := by
  induction l1 generalizing l2 l3 with
  | nil => rfl
  | cons a as ih =>
    cases l2 with
    | nil => simp [lexLe] at h12
    | cons b bs =>
      cases l3 with
      | nil => simp [lexLe] at h23
      | cons c cs =>
        rw [lexLe_cons_iff] at h12 h23 ⊢
        rcases h12 with h12 | ⟨h12, h12t⟩ <;> rcases h23 with h23 | ⟨h23, h23t⟩
        · left; omega
        · left; omega
        · left; omega
        · right
          exact ⟨by omega, ih h12t h23t⟩

theorem lexLe_antisymm {l1 l2 : List Char} (h12 : lexLe l1 l2 = true)
    (h21 : lexLe l2 l1 = true) : l1 = l2 := by
  induction l1 generalizing l2 with
  | nil =>
    cases l2 with
    | nil => rfl
    | cons b bs => simp [lexLe] at h21
  | cons a as ih =>
    cases l2 with
    | nil => simp [lexLe] at h12
    | cons b bs =>
      rcases Nat.lt_trichotomy a.toNat b.toNat with hab | hab | hab
      · simp [lexLe, hab] at h21
        omega
      · have h1 : ¬ a.toNat < b.toNat := by omega
        have h2 : ¬ b.toNat < a.toNat := by omega
        simp [lexLe, h1, h2] at h12 h21
        exact congrArg₂ List.cons (charToNat_inj hab) (ih h12 h21)
      · simp [lexLe, hab] at h12
        omega

instance : IsTotal String StrLe :=
  ⟨fun a b => lexLe_total a.data b.data⟩

instance : IsTrans String StrLe :=
  ⟨fun _ _ _ h1 h2 => lexLe_trans h1 h2⟩

instance : IsAntisymm String StrLe :=
  ⟨fun _ _ h1 h2 => String.ext (lexLe_antisymm h1 h2)⟩

instance : IsRefl String StrLe := ⟨fun a => lexLe_refl a.data⟩

theorem sortIds_sorted (l : List String) : List.Sorted StrLe (sortIds l) :=
  List.sorted_insertionSort StrLe l

theorem sortIds_perm (l : List String) : (sortIds l).Perm l :=
  List.perm_insertionSort StrLe l

theorem sortIds_canon {l1 l2 : List String} (h : l1.Perm l2) : sortIds l1 = sortIds l2 :=
  List.eq_of_perm_of_sorted
    ((sortIds_perm l1).trans (h.trans (sortIds_perm l2).symm))
    (sortIds_sorted l1) (sortIds_sorted l2)

/-! ### Key index characterization -/

theorem ingestAll_pmid (recs : List Entry) (g : GlobalIndexes) (v : String) :
    (ingestAll recs g).pmidIdx v =
      g.pmidIdx v ++ (recs.filter (fun r => r.pmid = v)).map Entry.id := by
  induction recs generalizing g with
  | nil => simp [ingestAll]
  | cons r rs ih =>
    rw [show ingestAll (r :: rs) g =
      ingestAll rs (globalMatcher r.id r.pmid r.authorKey r.titleMin r.journalKey g) from rfl]
    rw [ih]
    by_cases h : r.pmid = v
    · simp [globalMatcher, addToBucket, h, List.filter_cons]
    · have h3 : ¬ v = r.pmid := fun hvr => h hvr.symm
      simp [globalMatcher, addToBucket, h, h3, List.filter_cons]

theorem ingestAll_author (recs : List Entry) (g : GlobalIndexes) (v : String) :
    (ingestAll recs g).authorIdx v =
      g.authorIdx v ++ (recs.filter (fun r => r.authorKey = v)).map Entry.id := by
  induction recs generalizing g with
  | nil => simp [ingestAll]
  | cons r rs ih =>
    rw [show ingestAll (r :: rs) g =
      ingestAll rs (globalMatcher r.id r.pmid r.authorKey r.titleMin r.journalKey g) from rfl]
    rw [ih]
    by_cases h : r.authorKey = v
    · simp [globalMatcher, addToBucket, h, List.filter_cons]
    · have h3 : ¬ v = r.authorKey := fun hvr => h hvr.symm
      simp [globalMatcher, addToBucket, h, h3, List.filter_cons]

theorem ingestAll_title (recs : List Entry) (g : GlobalIndexes) (v : String) :
    (ingestAll recs g).titleIdx v =
      g.titleIdx v ++ (recs.filter (fun r => r.titleMin = v)).map Entry.id := by
  induction recs generalizing g with
  | nil => simp [ingestAll]
  | cons r rs ih =>
    rw [show ingestAll (r :: rs) g =
      ingestAll rs (globalMatcher r.id r.pmid r.authorKey r.titleMin r.journalKey g) from rfl]
    rw [ih]
    by_cases h : r.titleMin = v
    · simp [globalMatcher, addToBucket, h, List.filter_cons]
    · have h3 : ¬ v = r.titleMin := fun hvr => h hvr.symm
      simp [globalMatcher, addToBucket, h, h3, List.filter_cons]

theorem ingestAll_journal (recs : List Entry) (g : GlobalIndexes) (v : String) :
    (ingestAll recs g).journalIdx v =
      g.journalIdx v ++ (recs.filter (fun r => r.journalKey = v)).map Entry.id := by
  induction recs generalizing g with
  | nil => simp [ingestAll]
  | cons r rs ih =>
    rw [show ingestAll (r :: rs) g =
      ingestAll rs (globalMatcher r.id r.pmid r.authorKey r.titleMin r.journalKey g) from rfl]
    rw [ih]
    by_cases h : r.journalKey = v
    · simp [globalMatcher, addToBucket, h, List.filter_cons]
    · have h3 : ¬ v = r.journalKey := fun hvr => h hvr.symm
      simp [globalMatcher, addToBucket, h, h3, List.filter_cons]

theorem globalIndexes_keyIdx (k : MatchKey) (recs : List Entry) (v : String) :
    keyIdx k (globalIndexes recs) v = (recs.filter (fun r => keyVal k r = v)).map Entry.id := by
  cases k with
  | pmid => simpa [keyIdx, keyVal, globalIndexes, emptyIndexes] using ingestAll_pmid recs emptyIndexes v
  | author => simpa [keyIdx, keyVal, globalIndexes, emptyIndexes] using ingestAll_author recs emptyIndexes v
  | title => simpa [keyIdx, keyVal, globalIndexes, emptyIndexes] using ingestAll_title recs emptyIndexes v

theorem mem_globalIndexes_bucket {k : MatchKey} {recs : List Entry} {v x : String} :
    x ∈ keyIdx k (globalIndexes recs) v ↔ ∃ r ∈ recs, keyVal k r = v ∧ r.id = x := by
  rw [globalIndexes_keyIdx]
  simp only [List.mem_map, List.mem_filter]
  constructor
  · rintro ⟨r, ⟨hr, hv⟩, hx⟩
    exact ⟨r, hr, by simpa using hv, hx⟩
  · rintro ⟨r, hr, hv, hx⟩
    exact ⟨r, ⟨hr, by simpa using hv⟩, hx⟩

theorem globalIndexes_bucket_nodup {k : MatchKey} {recs : List Entry}
    (h : (recs.map Entry.id).Nodup) (v : String) :
    (keyIdx k (globalIndexes recs) v).Nodup := by
  rw [globalIndexes_keyIdx]
  have hs : List.Sublist ((recs.filter (fun r => keyVal k r = v)).map Entry.id) (recs.map Entry.id) :=
    (List.filter_sublist recs).map Entry.id
  exact h.sublist hs

theorem length_two_of_mem_nodup {l : List String} {x y : String}
    (hx : x ∈ l) (hy : y ∈ l) (hxy : x ≠ y) : 2 ≤ l.length := by
  have hnd : List.Nodup [x, y] := by simp [hxy]
  have hsub : [x, y] ⊆ l := by
    intro z hz
    simp only [List.mem_cons, List.not_mem_nil, or_false] at hz
    rcases hz with rfl | rfl <;> assumption
  simpa using (hnd.subperm hsub).length_le

/-! ### Member accumulation lemmas -/

theorem foldl_append_ext {f : List String → String → List String}
    (hf : ∀ ms y, ∃ e, f ms y = ms ++ e) (l : List String) :
    ∀ ms, ∃ e, l.foldl f ms = ms ++ e := by
  induction l with
  | nil => intro ms; exact ⟨[], by simp⟩
  | cons y ys ih =>
    intro ms
    obtain ⟨e1, he1⟩ := hf ms y
    obtain ⟨e2, he2⟩ := ih (f ms y)
    refine ⟨e1 ++ e2, ?_⟩
    rw [List.foldl_cons, he2, he1, List.append_assoc]

theorem foldl_mem {f : List String → String → List String} {P : String → String → Prop}
    (hf : ∀ ms y x, x ∈ f ms y ↔ x ∈ ms ∨ P y x) (l : List String) :
    ∀ ms x, x ∈ l.foldl f ms ↔ x ∈ ms ∨ ∃ y ∈ l, P y x := by
  induction l with
  | nil => intro ms x; simp
  | cons y ys ih =>
    intro ms x
    rw [List.foldl_cons, ih (f ms y) x]
    rw [hf ms y x]
    constructor
    · rintro ((h | h) | ⟨z, hz, hp⟩)
      · exact Or.inl h
      · exact Or.inr ⟨y, by simp, h⟩
      · exact Or.inr ⟨z, by simp [hz], hp⟩
    · rintro (h | ⟨z, hz, hp⟩)
      · exact Or.inl (Or.inl h)
      · rcases List.mem_cons.mp hz with rfl | hz2
        · exact Or.inl (Or.inr hp)
        · exact Or.inr ⟨z, hz2, hp⟩

theorem foldl_nodup {f : List String → String → List String}
    (hf : ∀ ms y, ms.Nodup → (f ms y).Nodup) (l : List String) :
    ∀ ms, ms.Nodup → (l.foldl f ms).Nodup := by
  induction l with
  | nil => intro ms h; simpa using h
  | cons y ys ih => intro ms h; exact ih (f ms y) (hf ms y h)

theorem addBucket_step_mem (ms : List String) (i x : String) :
    x ∈ (if i ∈ ms then ms else ms ++ [i]) ↔ x ∈ ms ∨ x = i := by
  split
  · constructor
    · exact Or.inl
    · rintro (h | rfl)
      · exact h
      · assumption
  · simp

theorem mem_addBucket {bucket ms : List String} {x : String} :
    x ∈ addBucket bucket ms ↔ x ∈ ms ∨ x ∈ bucket := by
  unfold addBucket
  rw [foldl_mem (P := fun y x => x = y) (fun ms y x => addBucket_step_mem ms y x) bucket ms x]
  simp

theorem addBucket_ext (bucket ms : List String) : ∃ e, addBucket bucket ms = ms ++ e := by
  unfold addBucket
  refine foldl_append_ext ?_ bucket ms
  intro ms2 y
  split
  · exact ⟨[], by simp⟩
  · exact ⟨[y], rfl⟩

theorem addBucket_nodup {bucket ms : List String} (h : ms.Nodup) : (addBucket bucket ms).Nodup := by
  unfold addBucket
  refine foldl_nodup ?_ bucket ms h
  intro ms2 y h2
  split
  · exact h2
  · simpa [List.nodup_append] using ⟨h2, by assumption⟩

theorem exists_matchKey (P : MatchKey → Prop) :
    (∃ k, P k) ↔ P .pmid ∨ P .author ∨ P .title := by
  constructor
  · rintro ⟨k, hk⟩
    cases k
    · exact Or.inl hk
    · exact Or.inr (Or.inl hk)
    · exact Or.inr (Or.inr hk)
  · rintro (h | h | h) <;> exact ⟨_, h⟩

theorem cond_addBucket_mem (cond : Prop) [Decidable cond] (bucket ms : List String) (x : String) :
    x ∈ (if cond then addBucket bucket ms else ms) ↔ x ∈ ms ∨ (cond ∧ x ∈ bucket) := by
  split
  · rw [mem_addBucket]
    constructor
    · rintro (h | h)
      · exact Or.inl h
      · exact Or.inr ⟨by assumption, h⟩
    · rintro (h | ⟨_, h⟩)
      · exact Or.inl h
      · exact Or.inr h
  · constructor
    · exact Or.inl
    · rintro (h | ⟨hc, _⟩)
      · exact h
      · exact absurd hc (by assumption)

theorem mem_matchListMaker {p a t : String} {g : GlobalIndexes} {ms : List String} {x : String} :
    x ∈ matchListMaker p a t g ms ↔
      x ∈ ms ∨ ∃ k, fires g k (tripleVal k p a t) ∧ x ∈ keyIdx k g (tripleVal k p a t) := by
  unfold matchListMaker
  rw [cond_addBucket_mem, cond_addBucket_mem, cond_addBucket_mem, exists_matchKey]
  simp only [fires, keyOk, keyIdx, tripleVal]
  tauto

theorem ext_trans {ms m1 m2 : List String} (h1 : ∃ e, m1 = ms ++ e)
    (h2 : ∃ e, m2 = m1 ++ e) : ∃ e, m2 = ms ++ e := by
  obtain ⟨e1, rfl⟩ := h1
  obtain ⟨e2, rfl⟩ := h2
  exact ⟨e1 ++ e2, by simp⟩

theorem cond_addBucket_ext (cond : Prop) [Decidable cond] (bucket ms : List String) :
    ∃ e, (if cond then addBucket bucket ms else ms) = ms ++ e := by
  split
  · exact addBucket_ext bucket ms
  · exact ⟨[], by simp⟩

theorem cond_addBucket_nodup (cond : Prop) [Decidable cond] {bucket ms : List String}
    (h : ms.Nodup) : (if cond then addBucket bucket ms else ms).Nodup := by
  split
  · exact addBucket_nodup h
  · exact h

theorem matchListMaker_ext (p a t : String) (g : GlobalIndexes) (ms : List String) :
    ∃ e, matchListMaker p a t g ms = ms ++ e :=
  ext_trans (ext_trans (cond_addBucket_ext _ _ _) (cond_addBucket_ext _ _ _))
    (cond_addBucket_ext _ _ _)

theorem matchListMaker_nodup {p a t : String} {g : GlobalIndexes} {ms : List String}
    (h : ms.Nodup) : (matchListMaker p a t g ms).Nodup :=
  cond_addBucket_nodup _ (cond_addBucket_nodup _ (cond_addBucket_nodup _ h))

/-! ### Closure and match-graph lemmas -/

theorem id_unique {dbs : List Entry} (hnd : (dbs.map Entry.id).Nodup)
    {r s : Entry} (hr : r ∈ dbs) (hs : s ∈ dbs) (h : r.id = s.id) : r = s :=
  List.inj_on_of_nodup_map hnd hr hs h

theorem find?_id_eq {dbs : List Entry} (hnd : (dbs.map Entry.id).Nodup)
    {r : Entry} (hr : r ∈ dbs) : dbs.find? (fun s => s.id = r.id) = some r := by
  induction dbs with
  | nil => cases hr
  | cons a rest ih =>
    by_cases h : a.id = r.id
    · have har : a = r := by
        rcases List.mem_cons.mp hr with rfl | hmem
        · rfl
        · exact id_unique hnd (by simp) (by simp [hmem]) h
      simp [List.find?_cons, har]
    · have hrr : r ∈ rest := by
        rcases List.mem_cons.mp hr with rfl | hmem
        · exact absurd rfl h
        · exact hmem
      have : rest.find? (fun s => s.id = r.id) = some r :=
        ih (by simpa using (List.nodup_cons.mp (by simpa using hnd)).2) hrr
      simp [List.find?_cons, h, this]

theorem getDetails_eq {dbs : List Entry} (hnd : (dbs.map Entry.id).Nodup)
    {r : Entry} (hr : r ∈ dbs) : getDetails r.id dbs = (r.pmid, r.authorKey, r.titleMin) := by
  unfold getDetails
  rw [find?_id_eq hnd hr]

theorem tripleVal_entry (k : MatchKey) (r : Entry) :
    tripleVal k r.pmid r.authorKey r.titleMin = keyVal k r := by
  cases k <;> rfl

theorem detailsVal_entry {dbs : List Entry} (hnd : (dbs.map Entry.id).Nodup)
    {r : Entry} (hr : r ∈ dbs) (k : MatchKey) : detailsVal k r.id dbs = keyVal k r := by
  unfold detailsVal
  rw [getDetails_eq hnd hr]
  cases k <;> rfl

theorem sharesKey_of_keyVal {k : MatchKey} {r s : Entry} (hv : keyVal k r = keyVal k s)
    (hok : keyOk k (keyVal k r)) : sharesKey r s := by
  cases k with
  | pmid => exact Or.inl ⟨hv, hok⟩
  | author => exact Or.inr (Or.inl ⟨hv, hok⟩)
  | title => exact Or.inr (Or.inr ⟨hv, hok⟩)

theorem keyVal_of_sharesKey {r s : Entry} (h : sharesKey r s) :
    ∃ k, keyVal k r = keyVal k s ∧ keyOk k (keyVal k r) := by
  rcases h with h | h | h
  · exact ⟨.pmid, h.1, h.2⟩
  · exact ⟨.author, h.1, h.2⟩
  · exact ⟨.title, h.1, h.2⟩

theorem expandAdds_sound {dbs : List Entry} {y x : String}
    (h : expandAdds (globalIndexes dbs) dbs y x) :
    x ∈ dbs.map Entry.id ∧ (x = y ∨ adjacent dbs y x) := by
  obtain ⟨k, ⟨hok, hlen⟩, hxb⟩ := h
  obtain ⟨rx, hrx, hvx, hidx⟩ := mem_globalIndexes_bucket.mp hxb
  have hxid : x ∈ dbs.map Entry.id := hidx ▸ List.mem_map_of_mem Entry.id hrx
  refine ⟨hxid, ?_⟩
  by_cases hxy : x = y
  · exact Or.inl hxy
  · cases hfind : dbs.find? (fun r => r.id = y) with
    | none =>
      exfalso
      have hdet : detailsVal k y dbs = "." := by
        unfold detailsVal getDetails
        rw [hfind]
        cases k <;> rfl
      rw [hdet] at hok
      cases k with
      | pmid => exact hok.2 rfl
      | author => exact hok rfl
      | title => exact hok rfl
    | some ry =>
      have hry : ry ∈ dbs := List.mem_of_find?_eq_some hfind
      have hidy : ry.id = y := by simpa using List.find?_some hfind
      have hdet : detailsVal k y dbs = keyVal k ry := by
        unfold detailsVal getDetails
        rw [hfind]
        cases k <;> rfl
      rw [hdet] at hok hvx
      refine Or.inr ⟨fun hyx => hxy hyx.symm, ry, hry, rx, hrx, hidy, hidx, ?_⟩
      exact sharesKey_of_keyVal hvx.symm hok

theorem expandAdds_complete {dbs : List Entry} (hnd : (dbs.map Entry.id).Nodup)
    {y x : String} (hadj : adjacent dbs y x) : expandAdds (globalIndexes dbs) dbs y x := by
  obtain ⟨hne, ry, hry, rx, hrx, hidy, hidx, hsk⟩ := hadj
  obtain ⟨k, hv, hok⟩ := keyVal_of_sharesKey hsk
  subst hidy
  refine ⟨k, ⟨?_, ?_⟩, ?_⟩
  · rw [detailsVal_entry hnd hry k]
    exact hok
  · rw [detailsVal_entry hnd hry k]
    have hmy : ry.id ∈ keyIdx k (globalIndexes dbs) (keyVal k ry) :=
      mem_globalIndexes_bucket.mpr ⟨ry, hry, rfl, rfl⟩
    have hmx : x ∈ keyIdx k (globalIndexes dbs) (keyVal k ry) :=
      mem_globalIndexes_bucket.mpr ⟨rx, hrx, hv.symm, hidx⟩
    exact length_two_of_mem_nodup hmy hmx hne
  · rw [detailsVal_entry hnd hry k]
    exact mem_globalIndexes_bucket.mpr ⟨rx, hrx, hv.symm, hidx⟩

theorem mem_expandOnce {g : GlobalIndexes} {dbs : List Entry} {seedId : String}
    {ms : List String} {x : String} :
    x ∈ expandOnce g dbs seedId ms ↔
      x ∈ ms ∨ ∃ y ∈ ms, y ≠ seedId ∧ expandAdds g dbs y x := by
  unfold expandOnce
  rw [foldl_mem (P := fun y x => y ≠ seedId ∧ expandAdds g dbs y x) ?_ ms ms x]
  intro ms2 y x2
  by_cases hy : y = seedId
  · simp [hy]
  · simp only [if_neg hy]
    rw [mem_matchListMaker]
    unfold expandAdds detailsVal
    tauto

theorem expandOnce_ext (g : GlobalIndexes) (dbs : List Entry) (seedId : String)
    (ms : List String) : ∃ e, expandOnce g dbs seedId ms = ms ++ e := by
  unfold expandOnce
  refine foldl_append_ext ?_ ms ms
  intro ms2 y
  split
  · exact ⟨[], by simp⟩
  · exact matchListMaker_ext _ _ _ _ _

theorem expandOnce_nodup {g : GlobalIndexes} {dbs : List Entry} {seedId : String}
    {ms : List String} (h : ms.Nodup) : (expandOnce g dbs seedId ms).Nodup := by
  unfold expandOnce
  refine foldl_nodup ?_ ms ms h
  intro ms2 y h2
  split
  · exact h2
  · exact matchListMaker_nodup h2

theorem expandOnce_subset {dbs : List Entry} {seedId : String} {ms : List String}
    (hsub : ∀ x ∈ ms, x ∈ dbs.map Entry.id) :
    ∀ x ∈ expandOnce (globalIndexes dbs) dbs seedId ms, x ∈ dbs.map Entry.id := by
  intro x hx
  rcases mem_expandOnce.mp hx with h | ⟨y, _, _, hadd⟩
  · exact hsub x h
  · exact (expandAdds_sound hadd).1

theorem expandOnce_good {dbs : List Entry} {sid : String} {ms : List String}
    (hg : ∀ x ∈ ms, x ∈ dbs.map Entry.id ∧ reaches dbs sid x) :
    ∀ x ∈ expandOnce (globalIndexes dbs) dbs sid ms,
      x ∈ dbs.map Entry.id ∧ reaches dbs sid x := by
  intro x hx
  rcases mem_expandOnce.mp hx with h | ⟨y, hy, _, hadd⟩
  · exact hg x h
  · obtain ⟨hxid, hcase⟩ := expandAdds_sound hadd
    rcases hcase with rfl | hadj
    · exact hg _ hy
    · exact ⟨hxid, Relation.ReflTransGen.tail (hg y hy).2 hadj⟩

theorem expandLoop_succ (g : GlobalIndexes) (dbs : List Entry) (sid : String)
    (n : Nat) (ms : List String) :
    expandLoop g dbs sid (n + 1) ms =
      if (expandOnce g dbs sid ms).length = ms.length then ms
      else expandLoop g dbs sid n (expandOnce g dbs sid ms) := rfl

theorem expandLoop_good {dbs : List Entry} {sid : String} :
    ∀ (n : Nat) (ms : List String),
      (∀ x ∈ ms, x ∈ dbs.map Entry.id ∧ reaches dbs sid x) →
      ∀ x ∈ expandLoop (globalIndexes dbs) dbs sid n ms,
        x ∈ dbs.map Entry.id ∧ reaches dbs sid x := by
  intro n
  induction n with
  | zero => intro ms hg; exact hg
  | succ n ih =>
    intro ms hg
    by_cases heq : (expandOnce (globalIndexes dbs) dbs sid ms).length = ms.length
    · rw [expandLoop_succ, if_pos heq]
      exact hg
    · rw [expandLoop_succ, if_neg heq]
      exact ih _ (expandOnce_good hg)

theorem expandLoop_ext (g : GlobalIndexes) (dbs : List Entry) (sid : String) :
    ∀ (n : Nat) (ms : List String), ∃ e, expandLoop g dbs sid n ms = ms ++ e := by
  intro n
  induction n with
  | zero => intro ms; exact ⟨[], by simp [expandLoop]⟩
  | succ n ih =>
    intro ms
    by_cases heq : (expandOnce g dbs sid ms).length = ms.length
    · rw [expandLoop_succ, if_pos heq]
      exact ⟨[], by simp⟩
    · rw [expandLoop_succ, if_neg heq]
      exact ext_trans (expandOnce_ext g dbs sid ms) (ih _)

theorem expandLoop_fix {dbs : List Entry} {sid : String} :
    ∀ (n : Nat) (ms : List String), ms.Nodup → (∀ x ∈ ms, x ∈ dbs.map Entry.id) →
      dbs.length + 1 ≤ n + ms.length →
      expandOnce (globalIndexes dbs) dbs sid (expandLoop (globalIndexes dbs) dbs sid n ms) =
        expandLoop (globalIndexes dbs) dbs sid n ms := by
  intro n
  induction n with
  | zero =>
    intro ms hndms hsub hlen
    exfalso
    have h1 : ms.length ≤ (dbs.map Entry.id).length := (hndms.subperm hsub).length_le
    rw [List.length_map] at h1
    omega
  | succ n ih =>
    intro ms hndms hsub hlen
    by_cases heq :
        (expandOnce (globalIndexes dbs) dbs sid ms).length = ms.length
    · rw [expandLoop_succ, if_pos heq]
      obtain ⟨e, he⟩ := expandOnce_ext (globalIndexes dbs) dbs sid ms
      have he2 : e = [] := by
        have := congrArg List.length he
        simp at this
        exact List.eq_nil_of_length_eq_zero (by omega)
      rw [he, he2, List.append_nil]
    · rw [expandLoop_succ, if_neg heq]
      obtain ⟨e, he⟩ := expandOnce_ext (globalIndexes dbs) dbs sid ms
      have hlen2 : ms.length + 1 ≤ (expandOnce (globalIndexes dbs) dbs sid ms).length := by
        rcases List.eq_nil_or_concat e with rfl | _
        · exfalso
          exact heq (by rw [he, List.append_nil])
        · have := congrArg List.length he
          simp at this
          have hepos : 1 ≤ e.length := by
            rcases e with _ | _
            · exfalso
              exact heq (by rw [he, List.append_nil])
            · simp
          omega
      exact ih _ (expandOnce_nodup hndms) (expandOnce_subset hsub) (by omega)

theorem expandLoop_nil (g : GlobalIndexes) (dbs : List Entry) (sid : String) :
    ∀ n : Nat, expandLoop g dbs sid n [] = [] := by
  intro n
  cases n with
  | zero => rfl
  | succ n => rw [expandLoop_succ]; rfl

theorem seedStep_good {dbs : List Entry} {seed : Entry} (hseed : seed ∈ dbs) :
    ∀ x ∈ matchListMaker seed.pmid seed.authorKey seed.titleMin (globalIndexes dbs) [],
      x ∈ dbs.map Entry.id ∧ reaches dbs seed.id x := by
  intro x hx
  rcases mem_matchListMaker.mp hx with h | ⟨k, ⟨hok, _⟩, hxb⟩
  · cases h
  · rw [tripleVal_entry] at hok hxb
    obtain ⟨rx, hrx, hvx, hidx⟩ := mem_globalIndexes_bucket.mp hxb
    refine ⟨hidx ▸ List.mem_map_of_mem Entry.id hrx, ?_⟩
    by_cases hxy : x = seed.id
    · rw [hxy]
      exact Relation.ReflTransGen.refl
    · refine Relation.ReflTransGen.single
        ⟨fun hyx => hxy hyx.symm, seed, hseed, rx, hrx, rfl, hidx, ?_⟩
      exact sharesKey_of_keyVal hvx.symm hok

theorem seed_mem_seedStep {dbs : List Entry} {seed : Entry} (hseed : seed ∈ dbs)
    (hne : matchListMaker seed.pmid seed.authorKey seed.titleMin (globalIndexes dbs) [] ≠ []) :
    seed.id ∈ matchListMaker seed.pmid seed.authorKey seed.titleMin (globalIndexes dbs) [] := by
  obtain ⟨x, hx⟩ := List.exists_mem_of_ne_nil _ hne
  rcases mem_matchListMaker.mp hx with h | ⟨k, hf, _⟩
  · cases h
  · apply mem_matchListMaker.mpr
    right
    refine ⟨k, hf, ?_⟩
    rw [tripleVal_entry]
    exact mem_globalIndexes_bucket.mpr ⟨seed, hseed, rfl, rfl⟩

theorem seedStep_complete {dbs : List Entry} (hnd : (dbs.map Entry.id).Nodup)
    {seed : Entry} (hseed : seed ∈ dbs) {x : String} (hadj : adjacent dbs seed.id x) :
    x ∈ matchListMaker seed.pmid seed.authorKey seed.titleMin (globalIndexes dbs) [] := by
  obtain ⟨hne, ry, hry, rx, hrx, hidy, hidx, hsk⟩ := hadj
  have hrys : ry = seed := id_unique hnd hry hseed hidy
  rw [hrys] at hsk
  obtain ⟨k, hv, hok⟩ := keyVal_of_sharesKey hsk
  apply mem_matchListMaker.mpr
  right
  refine ⟨k, ⟨?_, ?_⟩, ?_⟩
  · rw [tripleVal_entry]
    exact hok
  · rw [tripleVal_entry]
    have hmy : seed.id ∈ keyIdx k (globalIndexes dbs) (keyVal k seed) :=
      mem_globalIndexes_bucket.mpr ⟨seed, hseed, rfl, rfl⟩
    have hmx : x ∈ keyIdx k (globalIndexes dbs) (keyVal k seed) :=
      mem_globalIndexes_bucket.mpr ⟨rx, hrx, hv.symm, hidx⟩
    exact length_two_of_mem_nodup hmy hmx hne
  · rw [tripleVal_entry]
    exact mem_globalIndexes_bucket.mpr ⟨rx, hrx, hv.symm, hidx⟩

/-! ## Claim C1 -/

/-- C1, counterexample.  The claim as stated fails for an isolated seed:
with a single ingested record (unique PMID, no shared keys) the
match-closure's accumulated member set is empty, while the connected
component of the seed in the match graph is the singleton containing the
seed itself (connectivity is reflexive).  So the member set does not
equal the component. -/
theorem C1_counterexample :
    ¬ (∀ x, x ∈ closureOf (globalIndexes [soloEntry]) [soloEntry] soloEntry ↔
        reaches [soloEntry] soloEntry.id x) := by
  intro h
  exact absurd ((h soloEntry.id).mpr Relation.ReflTransGen.refl) (by decide)

/-- C1, amended: whenever the match-closure expansion reaches its fixed
point with a nonempty accumulated member set (equivalently, the seed
shares a non-sentinel key bucket with at least one other record), the
member set equals the connected component of the seed in the graph over
all ingested record ids whose edges join two ids sharing an equal
non-sentinel key value (pmid other than NoPMID/".", authorKey other
than ".", titleMin other than ".") in the global key index; in
particular ids connected only through a chain of intermediate records
are included.  For an isolated seed the member set is empty rather than
the singleton component. -/
theorem C1_closure_eq_component (dbs : List Entry) (hnd : (dbs.map Entry.id).Nodup)
    (seed : Entry) (hseed : seed ∈ dbs)
    (hne : closureOf (globalIndexes dbs) dbs seed ≠ []) :
    ∀ x, x ∈ closureOf (globalIndexes dbs) dbs seed ↔ reaches dbs seed.id x := by
  intro x
  have hS0nd : (matchListMaker seed.pmid seed.authorKey seed.titleMin
      (globalIndexes dbs) []).Nodup := matchListMaker_nodup List.nodup_nil
  have hS0sub : ∀ y ∈ matchListMaker seed.pmid seed.authorKey seed.titleMin
      (globalIndexes dbs) [], y ∈ dbs.map Entry.id :=
    fun y hy => (seedStep_good hseed y hy).1
  have hfix : expandOnce (globalIndexes dbs) dbs seed.id
      (closureOf (globalIndexes dbs) dbs seed) = closureOf (globalIndexes dbs) dbs seed :=
    expandLoop_fix (dbs.length + 1) _ hS0nd hS0sub (by omega)
  have hgood := expandLoop_good (dbs.length + 1) _ (seedStep_good hseed)
  have hS0ne : matchListMaker seed.pmid seed.authorKey seed.titleMin
      (globalIndexes dbs) [] ≠ [] := by
    intro h0
    apply hne
    show expandLoop (globalIndexes dbs) dbs seed.id (dbs.length + 1) _ = []
    rw [h0]
    exact expandLoop_nil _ _ _ _
  have hS0F : ∀ y ∈ matchListMaker seed.pmid seed.authorKey seed.titleMin
      (globalIndexes dbs) [], y ∈ closureOf (globalIndexes dbs) dbs seed := by
    intro y hy
    obtain ⟨e, he⟩ := expandLoop_ext (globalIndexes dbs) dbs seed.id (dbs.length + 1)
      (matchListMaker seed.pmid seed.authorKey seed.titleMin (globalIndexes dbs) [])
    show y ∈ expandLoop (globalIndexes dbs) dbs seed.id (dbs.length + 1) _
    rw [he]
    exact List.mem_append_left e hy
  constructor
  · intro hx
    exact (hgood x hx).2
  · intro hr
    induction hr with
    | refl => exact hS0F seed.id (seed_mem_seedStep hseed hS0ne)
    | tail hr2 hadj ih =>
      rename_i b c
      by_cases hb : b = seed.id
      · subst hb
        exact hS0F c (seedStep_complete hnd hseed hadj)
      · have hx2 : c ∈ expandOnce (globalIndexes dbs) dbs seed.id
            (closureOf (globalIndexes dbs) dbs seed) :=
          mem_expandOnce.mpr (Or.inr ⟨b, ih, hb, expandAdds_complete hnd hadj⟩)
        rwa [hfix] at hx2

/-- C1, witness: the chain fixture (records A and B share a PMID, B and
C share a title) has a nonempty closure for seed A, and the theorem
applies; moreover the concrete closure contains C, which is connected to
A only through B. -/
theorem C1_witness :
    ((chainDb.map Entry.id).Nodup ∧ chainA ∈ chainDb ∧
      closureOf (globalIndexes chainDb) chainDb chainA ≠ [] ∧
      "MED_00003" ∈ closureOf (globalIndexes chainDb) chainDb chainA) ∧
    (∀ x, x ∈ closureOf (globalIndexes chainDb) chainDb chainA ↔
      reaches chainDb chainA.id x) :=
  ⟨⟨by decide, by decide, by decide, by decide⟩,
    C1_closure_eq_component chainDb (by decide) chainA (by decide) (by decide)⟩

/-! ## Claim C6 -/

/-- C6, counterexample.  Ingesting a single record whose pmid is the
sentinel `"NoPMID"`, whose author and title keys are the sentinel `"."`,
and whose year (inside the author key) is `"NoYear"` produces buckets
keyed by those sentinels in the key index: the dictionary-filling loops
of `processDatabase` and `globalMatcher` insert every value unfiltered,
so the claimed invariant "no KeyIndex bucket is ever keyed by a
sentinel" is false. -/
theorem C6_counterexample :
    (globalIndexes [⟨"MED_00001", "NoPMID", ".", ".", ""⟩]).pmidIdx "NoPMID" =
        ["MED_00001"] ∧
    (globalIndexes [⟨"MED_00001", "NoPMID", ".", ".", ""⟩]).authorIdx "." =
        ["MED_00001"] ∧
    (globalIndexes [⟨"MED_00001", "NoPMID", ".", ".", ""⟩]).titleIdx "." =
        ["MED_00001"] := by
  exact ⟨by decide, by decide, by decide⟩

/-- C6, amended: sentinel values are inserted as bucket keys like any
other value — each ingested record's id is appended to the bucket of
each of its four key values unconditionally — and the exclusion of
sentinels happens in the match engine instead: `matchListMaker` skips
the lookup for any sentinel key value, so a sentinel bucket never
contributes ids to a match (this is spec section 4.1's own description:
"sentinels are excluded from indexing by the engine, not the index"). -/
theorem C6_sentinels_indexed_but_skipped :
    (∀ (recs : List Entry) (r : Entry), r ∈ recs →
      r.id ∈ (globalIndexes recs).pmidIdx r.pmid ∧
      r.id ∈ (globalIndexes recs).authorIdx r.authorKey ∧
      r.id ∈ (globalIndexes recs).titleIdx r.titleMin ∧
      r.id ∈ (globalIndexes recs).journalIdx r.journalKey) ∧
    (∀ (p a t : String) (g : GlobalIndexes) (ms : List String) (x : String),
      x ∈ matchListMaker p a t g ms →
      x ∈ ms ∨ ∃ k, keyOk k (tripleVal k p a t) ∧ x ∈ keyIdx k g (tripleVal k p a t)) ∧
    (∀ (g : GlobalIndexes) (ms : List String),
      matchListMaker "NoPMID" "." "." g ms = ms) := by
  refine ⟨?_, ?_, ?_⟩
  · intro recs r hr
    refine ⟨?_, ?_, ?_, ?_⟩
    · exact mem_globalIndexes_bucket (k := .pmid).mpr ⟨r, hr, rfl, rfl⟩
    · exact mem_globalIndexes_bucket (k := .author).mpr ⟨r, hr, rfl, rfl⟩
    · exact mem_globalIndexes_bucket (k := .title).mpr ⟨r, hr, rfl, rfl⟩
    · have hchar := ingestAll_journal recs emptyIndexes r.journalKey
      have : (globalIndexes recs).journalIdx r.journalKey =
          (recs.filter (fun s => s.journalKey = r.journalKey)).map Entry.id := by
        simpa [globalIndexes, emptyIndexes] using hchar
      rw [this]
      exact List.mem_map_of_mem Entry.id (List.mem_filter.mpr ⟨hr, by simp⟩)
  · intro p a t g ms x hx
    rcases mem_matchListMaker.mp hx with h | ⟨k, ⟨hok, _⟩, hb⟩
    · exact Or.inl h
    · exact Or.inr ⟨k, hok, hb⟩
  · intro g ms
    unfold matchListMaker
    simp

/-- C6, witness: the amended theorem applied to the sentinel-keyed
record of the counterexample. -/
theorem C6_witness :
    ((⟨"MED_00001", "NoPMID", ".", ".", ""⟩ : Entry) ∈
        [(⟨"MED_00001", "NoPMID", ".", ".", ""⟩ : Entry)]) ∧
    ("MED_00001" ∈ (globalIndexes [(⟨"MED_00001", "NoPMID", ".", ".", ""⟩ : Entry)]).pmidIdx
        "NoPMID") ∧
    matchListMaker "NoPMID" "." "."
      (globalIndexes [(⟨"MED_00001", "NoPMID", ".", ".", ""⟩ : Entry)]) [] = [] :=
  ⟨by decide,
    (C6_sentinels_indexed_but_skipped.1 [⟨"MED_00001", "NoPMID", ".", ".", ""⟩]
      ⟨"MED_00001", "NoPMID", ".", ".", ""⟩ (by decide)).1,
    C6_sentinels_indexed_but_skipped.2.2
      (globalIndexes [⟨"MED_00001", "NoPMID", ".", ".", ""⟩]) []⟩

/-! ## Claim C2 -/

theorem runGroups_dense_inv :
    ∀ (queries : List (String × List String)) (count : Nat) (memo : List (String × Nat)),
      (∀ s gnum, lookupMemo s memo = some gnum → 1 ≤ gnum ∧ gnum ≤ count) →
      (∀ gnum, 1 ≤ gnum → gnum ≤ count → ∃ s, lookupMemo s memo = some gnum) →
      (∀ s gnum, lookupMemo s (runGroups queries (count, memo)).2 = some gnum →
        1 ≤ gnum ∧ gnum ≤ (runGroups queries (count, memo)).1) ∧
      (∀ gnum, 1 ≤ gnum → gnum ≤ (runGroups queries (count, memo)).1 →
        ∃ s, lookupMemo s (runGroups queries (count, memo)).2 = some gnum) := by
  intro queries
  induction queries with
  | nil => intro count memo h1 h2; exact ⟨h1, h2⟩
  | cons q rest ih =>
    intro count memo h1 h2
    obtain ⟨theId, members⟩ := q
    by_cases hlen : 1 < members.length
    · cases hfind : lookupMemo (joinSemi (sortIds members)) memo with
      | some g0 =>
        have heq : findGroups theId members count memo =
            (members.filter (fun x => x ≠ theId), some g0, count, memo) := by
          unfold findGroups
          rw [if_pos hlen]
          simp only [hfind]
        have hrg : runGroups ((theId, members) :: rest) (count, memo) =
            runGroups rest (count, memo) := by
          simp only [runGroups, heq]
        rw [hrg]
        exact ih count memo h1 h2
      | none =>
        have heq : findGroups theId members count memo =
            (members.filter (fun x => x ≠ theId), some (count + 1), count + 1,
              (joinSemi (sortIds members), count + 1) :: memo) := by
          unfold findGroups
          rw [if_pos hlen]
          simp only [hfind]
        have hrg : runGroups ((theId, members) :: rest) (count, memo) =
            runGroups rest (count + 1, (joinSemi (sortIds members), count + 1) :: memo) := by
          simp only [runGroups, heq]
        rw [hrg]
        refine ih (count + 1) ((joinSemi (sortIds members), count + 1) :: memo) ?_ ?_
        · intro s gnum hs
          by_cases hssig : s = joinSemi (sortIds members)
          · rw [hssig] at hs
            unfold lookupMemo at hs
            rw [if_pos rfl] at hs
            cases hs
            omega
          · unfold lookupMemo at hs
            rw [if_neg (fun h => hssig (by rw [h]))] at hs
            have := h1 s gnum hs
            omega
        · intro gnum hg1 hg2
          by_cases hgc : gnum = count + 1
          · refine ⟨joinSemi (sortIds members), ?_⟩
            unfold lookupMemo
            rw [if_pos rfl, hgc]
          · obtain ⟨s, hs⟩ := h2 gnum hg1 (by omega)
            refine ⟨s, ?_⟩
            unfold lookupMemo
            have hssig : ¬ s = joinSemi (sortIds members) := by
              intro h
              rw [h] at hs
              rw [hfind] at hs
              cases hs
            rw [if_neg (fun h => hssig (by rw [h]))]
            exact hs
    · have heq : findGroups theId members count memo = ([], none, count, memo) := by
        unfold findGroups
        rw [if_neg hlen]
      have hrg : runGroups ((theId, members) :: rest) (count, memo) =
          runGroups rest (count, memo) := by
        simp only [runGroups, heq]
      rw [hrg]
      exact ih count memo h1 h2

/-- C2: in `findGroups`, the component signature is the member ids
sorted lexicographically and joined by `";"`; a memo hit returns the
stored number with counter and memo unchanged; a miss increments the
counter, stores and returns the new value; the group number is invariant
under permutation of the member list (so identical member sets yield the
same number regardless of discovery order); folding any query sequence
from the initial state (counter 0, empty memo) keeps the stored numbers
exactly the dense range 1..counter, in first-seen order, so the first
assigned number is 1; and a member set of size at most one yields the
`'.'` sentinel (modelled `none`) instead of a number. -/
theorem C2_findGroups_contract :
    (∀ (theId : String) (members : List String) (count : Nat) (memo : List (String × Nat)),
      members.length ≤ 1 →
      findGroups theId members count memo = ([], none, count, memo)) ∧
    (∀ (theId : String) (members : List String) (count : Nat) (memo : List (String × Nat))
      (gnum : Nat), 1 < members.length →
      lookupMemo (joinSemi (sortIds members)) memo = some gnum →
      findGroups theId members count memo =
        (members.filter (fun x => x ≠ theId), some gnum, count, memo)) ∧
    (∀ (theId : String) (members : List String) (count : Nat) (memo : List (String × Nat)),
      1 < members.length →
      lookupMemo (joinSemi (sortIds members)) memo = none →
      findGroups theId members count memo =
        (members.filter (fun x => x ≠ theId), some (count + 1), count + 1,
          (joinSemi (sortIds members), count + 1) :: memo)) ∧
    (∀ (theId1 theId2 : String) (members1 members2 : List String) (count : Nat)
      (memo : List (String × Nat)), members1.Perm members2 →
      (findGroups theId1 members1 count memo).2.1 =
        (findGroups theId2 members2 count memo).2.1) ∧
    (∀ (queries : List (String × List String)) (gnum : Nat),
      (∃ s, lookupMemo s (runGroups queries (0, [])).2 = some gnum) ↔
        (1 ≤ gnum ∧ gnum ≤ (runGroups queries (0, [])).1)) := by
  refine ⟨?_, ?_, ?_, ?_, ?_⟩
  · intro theId members count memo hlen
    unfold findGroups
    rw [if_neg (by omega)]
  · intro theId members count memo gnum hlen hfind
    unfold findGroups
    rw [if_pos hlen]
    simp only [hfind]
  · intro theId members count memo hlen hfind
    unfold findGroups
    rw [if_pos hlen]
    simp only [hfind]
  · intro theId1 theId2 members1 members2 count memo hperm
    have hsig : joinSemi (sortIds members1) = joinSemi (sortIds members2) := by
      rw [sortIds_canon hperm]
    have hlen : members1.length = members2.length := hperm.length_eq
    unfold findGroups
    by_cases h : 1 < members1.length
    · rw [if_pos h, if_pos (hlen ▸ h)]
      simp only [hsig]
      cases lookupMemo (joinSemi (sortIds members2)) memo <;> rfl
    · rw [if_neg h, if_neg (hlen ▸ h)]
  · intro queries gnum
    have h := runGroups_dense_inv queries 0 []
      (fun s g hs => by cases hs) (fun g h1 h2 => by omega)
    exact ⟨fun ⟨s, hs⟩ => h.1 s gnum hs, fun ⟨h1, h2⟩ => h.2 gnum h1 h2⟩

/-- C2, witness: concrete evaluations exercising every part of the
contract — the sentinel for a singleton set, a first-seen assignment of
number 1, a memo hit on the permuted member list, and denseness of a
two-component run. -/
theorem C2_witness :
    findGroups "A" ["A"] 0 [] = ([], none, 0, []) ∧
    findGroups "A" ["A", "B"] 0 [] =
      (["B"], some 1, 1, [(joinSemi (sortIds ["A", "B"]), 1)]) ∧
    (findGroups "B" ["B", "A"] 1 [(joinSemi (sortIds ["A", "B"]), 1)]).2.1 =
      (findGroups "A" ["A", "B"] 1 [(joinSemi (sortIds ["A", "B"]), 1)]).2.1 ∧
    (∃ s, lookupMemo s
        (runGroups [("A", ["A", "B"]), ("C", ["C", "D"])] (0, [])).2 = some 2) := by
  refine ⟨?_, ?_, ?_, ?_⟩
  · exact C2_findGroups_contract.1 "A" ["A"] 0 [] (by decide)
  · exact C2_findGroups_contract.2.2.1 "A" ["A", "B"] 0 [] (by decide) (by decide)
  · exact C2_findGroups_contract.2.2.2.1 "B" "A" ["B", "A"] ["A", "B"] 1
      [(joinSemi (sortIds ["A", "B"]), 1)] (by decide)
  · exact (C2_findGroups_contract.2.2.2.2 [("A", ["A", "B"]), ("C", ["C", "D"])] 2).mpr
      ⟨by decide, by decide⟩

/-! ## Claim C3 -/

/-- C3: the PMID gate of the pairwise score.  Same non-sentinel PMID on
both sides stores exactly 100 with the weighted heuristic skipped;
exactly one sentinel side defers to the weighted heuristic; differing
non-sentinel PMIDs store exactly 0 with the heuristic skipped. -/
theorem C3_pmid_gate :
    (∀ (dl : String → String → Nat) (e1 e2 : Entry),
      e1.pmid = e2.pmid → e1.pmid ≠ "NoPMID" → pairScore dl e1 e2 = some 100) ∧
    (∀ (dl : String → String → Nat) (e1 e2 : Entry),
      e1.pmid = "NoPMID" → e2.pmid ≠ "NoPMID" →
      pairScore dl e1 e2 = weightedScore dl e1 e2) ∧
    (∀ (dl : String → String → Nat) (e1 e2 : Entry),
      e1.pmid ≠ "NoPMID" → e2.pmid = "NoPMID" →
      pairScore dl e1 e2 = weightedScore dl e1 e2) ∧
    (∀ (dl : String → String → Nat) (e1 e2 : Entry),
      e1.pmid ≠ e2.pmid → e1.pmid ≠ "NoPMID" → e2.pmid ≠ "NoPMID" →
      pairScore dl e1 e2 = some 0) := by
  refine ⟨?_, ?_, ?_, ?_⟩
  · intro dl e1 e2 h1 h2
    unfold pairScore
    rw [if_pos ⟨h1, h2⟩]
  · intro dl e1 e2 h1 h2
    unfold pairScore
    rw [if_neg (fun h => h.2 h1), if_pos (Or.inl h1)]
  · intro dl e1 e2 h1 h2
    unfold pairScore
    rw [if_neg (fun h => h1 (h.1.trans h2)), if_pos (Or.inr h2)]
  · intro dl e1 e2 h1 h2 h3
    unfold pairScore
    rw [if_neg (fun h => h1 h.1), if_neg (fun h => h.elim h2 h3)]

/-- C3, witness: concrete pairs exercising the three gate outcomes. -/
theorem C3_witness :
    pairScore dlStub ⟨"A", "123", "a|b|c|2019", "t", "j"⟩ ⟨"B", "123", "x|y|z|2019", "t", "j"⟩ =
      some 100 ∧
    pairScore dlStub ⟨"A", "NoPMID", "a|b|c|2019", "t", "j"⟩ ⟨"B", "123", "a|b|c|2019", "t", "j"⟩ =
      weightedScore dlStub ⟨"A", "NoPMID", "a|b|c|2019", "t", "j"⟩
        ⟨"B", "123", "a|b|c|2019", "t", "j"⟩ ∧
    pairScore dlStub ⟨"A", "123", "a|b|c|2019", "t", "j"⟩ ⟨"B", "456", "a|b|c|2019", "t", "j"⟩ =
      some 0 :=
  ⟨C3_pmid_gate.1 dlStub _ _ (by decide) (by decide),
   C3_pmid_gate.2.1 dlStub _ _ (by decide) (by decide),
   C3_pmid_gate.2.2.2 dlStub _ _ (by decide) (by decide) (by decide)⟩

/-! ## Arithmetic bounds for the weighted terms -/

theorem mulDivLe {a b c : Nat} (h : a ≤ b) (hb : 0 < b) : a * c / b ≤ c := by
  calc a * c / b ≤ b * c / b := Nat.div_le_div_right (Nat.mul_le_mul_right c h)
  _ = c := Nat.mul_div_cancel_left c hb

theorem dlBound_le_sum {dl : String → String → Nat} (hdl : DlBound dl) (s t : String) :
    dl s t ≤ s.length + t.length :=
  (hdl s t).trans (max_le (Nat.le_add_right _ _) (Nat.le_add_left _ _))

theorem titleTerm_range {dl : String → String → Nat} (hdl : DlBound dl) {t1 t2 : String}
    (hne : t1.length + t2.length ≠ 0) :
    ∃ v, titleTerm dl t1 t2 = some v ∧ 0 ≤ v ∧ v ≤ 30 := by
  unfold titleTerm
  rw [if_neg hne]
  have hdiv : dl t1 t2 * 30 / (t1.length + t2.length) ≤ 30 :=
    mulDivLe (dlBound_le_sum hdl t1 t2) (Nat.pos_of_ne_zero hne)
  have hdivInt : ((dl t1 t2 * 30 / (t1.length + t2.length) : Nat) : Int) ≤ 30 := by
    exact_mod_cast hdiv
  have hnn : (0 : Int) ≤ ((dl t1 t2 * 30 / (t1.length + t2.length) : Nat) : Int) :=
    Int.natCast_nonneg _
  exact ⟨_, rfl, by omega, by omega⟩

theorem journalTerm_range {dl : String → String → Nat} (hdl : DlBound dl) (j1 j2 : String) :
    0 ≤ journalTerm dl j1 j2 ∧ journalTerm dl j1 j2 ≤ 20 := by
  unfold journalTerm
  by_cases h1 : j1 ≠ "" ∧ j2 ≠ ""
  · rw [if_pos h1]
    have hpos : 0 < j1.length + j2.length := by
      have : j1.length ≠ 0 := fun h => h1.1 (by
        cases j1 with
        | mk d =>
          cases d with
          | nil => rfl
          | cons c cs => simp [String.length] at h)
      omega
    have hdiv : dl j1 j2 * 20 / (j1.length + j2.length) ≤ 20 :=
      mulDivLe (dlBound_le_sum hdl j1 j2) hpos
    have hdivInt : ((dl j1 j2 * 20 / (j1.length + j2.length) : Nat) : Int) ≤ 20 := by
      exact_mod_cast hdiv
    have hnn : (0 : Int) ≤ ((dl j1 j2 * 20 / (j1.length + j2.length) : Nat) : Int) :=
      Int.natCast_nonneg _
    omega
  · rw [if_neg h1]
    split <;> omega

theorem yearTerm_range (y1 y2 : String) : 0 ≤ yearTerm y1 y2 ∧ yearTerm y1 y2 ≤ 20 := by
  unfold yearTerm
  split
  · omega
  · split
    · omega
    · split
      · split <;> (try split) <;> omega
      · omega

theorem titleTerm_some {dl : String → String → Nat} (hdl : DlBound dl) {t1 t2 : String}
    {v : Int} (h : titleTerm dl t1 t2 = some v) : 0 ≤ v ∧ v ≤ 30 := by
  unfold titleTerm at h
  by_cases hne : t1.length + t2.length = 0
  · rw [if_pos hne] at h
    cases h
  · rw [if_neg hne] at h
    obtain ⟨w, hw, h0, h30⟩ := titleTerm_range hdl hne
    unfold titleTerm at hw
    rw [if_neg hne] at hw
    cases hw
    cases h
    exact ⟨h0, h30⟩

theorem authorPairWeight_some {dl : String → String → Nat} (hdl : DlBound dl)
    {factor : Nat} {x y : String} {w : Int}
    (h : authorPairWeight dl factor x y = some w) : 0 ≤ w ∧ w ≤ factor := by
  unfold authorPairWeight at h
  by_cases hne : x.length + y.length = 0
  · rw [if_pos hne] at h
    cases h
  · rw [if_neg hne] at h
    cases h
    have hdiv : dl x y * factor / (x.length + y.length) ≤ factor :=
      mulDivLe (dlBound_le_sum hdl x y) (Nat.pos_of_ne_zero hne)
    have hdivInt : ((dl x y * factor / (x.length + y.length) : Nat) : Int) ≤ factor := by
      exact_mod_cast hdiv
    have hnn : (0 : Int) ≤ ((dl x y * factor / (x.length + y.length) : Nat) : Int) :=
      Int.natCast_nonneg _
    omega

theorem bestMatch_range {dl : String → String → Nat} (hdl : DlBound dl) {factor : Nat}
    {x : String} :
    ∀ (a2 : List String) (h : Int), 0 ≤ h → h ≤ factor →
      ∀ res, bestMatch dl factor x a2 h = some res → 0 ≤ res ∧ res ≤ factor := by
  intro a2
  induction a2 with
  | nil =>
    intro h h0 hf res hres
    cases hres
    exact ⟨h0, hf⟩
  | cons y ys ih =>
    intro h h0 hf res hres
    unfold bestMatch at hres
    cases hw : authorPairWeight dl factor x y with
    | none => simp only [hw] at hres; cases hres
    | some w =>
      simp only [hw] at hres
      obtain ⟨hw0, hwf⟩ := authorPairWeight_some hdl hw
      by_cases hcmp : h < w
      · rw [if_pos hcmp] at hres
        exact ih w hw0 hwf res hres
      · rw [if_neg hcmp] at hres
        exact ih h h0 hf res hres

theorem authorSum_range {dl : String → String → Nat} (hdl : DlBound dl) {factor : Nat}
    (a2 : List String) :
    ∀ (a1 : List String) (acc res : Int), 0 ≤ acc →
      authorSum dl factor a2 a1 acc = some res →
      0 ≤ res ∧ res ≤ acc + a1.length * factor := by
  intro a1
  induction a1 with
  | nil =>
    intro acc res hacc hres
    cases hres
    constructor
    · exact hacc
    · simp
  | cons x xs ih =>
    intro acc res hacc hres
    unfold authorSum at hres
    cases hb : bestMatch dl factor x a2 0 with
    | none => simp only [hb] at hres; cases hres
    | some b =>
      simp only [hb] at hres
      obtain ⟨hb0, hbf⟩ := bestMatch_range hdl a2 0 (le_refl 0) (Int.natCast_nonneg _) b hb
      obtain ⟨hr0, hrb⟩ := ih (acc + b) res (by omega) hres
      refine ⟨hr0, ?_⟩
      have hlen : (((x :: xs).length : Nat) : Int) = ((xs.length : Nat) : Int) + 1 := by
        simp [List.length_cons]
      rw [hlen]
      have hexp : (((xs.length : Nat) : Int) + 1) * factor =
          ((xs.length : Nat) : Int) * factor + factor := by ring
      rw [hexp]
      omega

theorem authorTerm_range {dl : String → String → Nat} (hdl : DlBound dl)
    {a1 a2 : List String} {v : Int} (h : authorTerm dl a1 a2 = some v) :
    0 ≤ v ∧ v ≤ 30 := by
  unfold authorTerm at h
  by_cases hd : dl (pyJoin a1) (pyJoin a2) ≤ 5
  · rw [if_pos hd] at h
    cases h
    have : ((dl (pyJoin a1) (pyJoin a2) : Nat) : Int) ≤ 5 := by exact_mod_cast hd
    have hnn : (0 : Int) ≤ ((dl (pyJoin a1) (pyJoin a2) : Nat) : Int) := Int.natCast_nonneg _
    omega
  · rw [if_neg hd] at h
    by_cases hlen : 2 ≤ a1.length
    · rw [if_pos hlen] at h
      obtain ⟨h0, hb⟩ := authorSum_range hdl a2 a1 0 v (le_refl 0) h
      refine ⟨h0, hb.trans ?_⟩
      have hmul : a1.length * (30 / a1.length) ≤ 30 := by
        calc a1.length * (30 / a1.length) = 30 / a1.length * a1.length := Nat.mul_comm _ _
        _ ≤ 30 := Nat.div_mul_le_self 30 a1.length
      have : ((a1.length * (30 / a1.length) : Nat) : Int) ≤ 30 := by exact_mod_cast hmul
      push_cast at this ⊢
      omega
    · rw [if_neg hlen] at h
      obtain ⟨h0, hb⟩ := authorSum_range hdl a2 a1 0 v (le_refl 0) h
      refine ⟨h0, hb.trans ?_⟩
      have hl : a1.length ≤ 1 := by omega
      have hmul : a1.length * 30 ≤ 30 := by omega
      have : ((a1.length * 30 : Nat) : Int) ≤ 30 := by exact_mod_cast hmul
      push_cast at this ⊢
      omega

theorem weightedScore_range {dl : String → String → Nat} (hdl : DlBound dl)
    {e1 e2 : Entry} {v : Int} (h : weightedScore dl e1 e2 = some v) :
    0 ≤ v ∧ v ≤ 100 := by
  unfold weightedScore at h
  cases ht : titleTerm dl e1.titleMin e2.titleMin with
  | none => rw [ht] at h; cases h
  | some t =>
    rw [ht] at h
    cases ha : authorTerm dl (splitAuthorKey e1.authorKey).1 (splitAuthorKey e2.authorKey).1 with
    | none => simp only [ha] at h; cases h
    | some a =>
      simp only [ha] at h
      cases h
      obtain ⟨ht0, ht30⟩ := titleTerm_some hdl ht
      obtain ⟨ha0, ha30⟩ := authorTerm_range hdl ha
      obtain ⟨hj0, hj20⟩ := journalTerm_range hdl e1.journalKey e2.journalKey
      obtain ⟨hy0, hy20⟩ := yearTerm_range (splitAuthorKey e1.authorKey).2
        (splitAuthorKey e2.authorKey).2
      constructor <;> omega

theorem pairScore_range {dl : String → String → Nat} (hdl : DlBound dl)
    {e1 e2 : Entry} {v : Int} (h : pairScore dl e1 e2 = some v) :
    0 ≤ v ∧ v ≤ 100 := by
  unfold pairScore at h
  split at h
  · cases h
    omega
  · split at h
    · exact weightedScore_range hdl h
    · cases h
      omega

/-! ## Claim C7 -/

/-- C7, counterexample.  The claim fails on both counts: the journal
term on two empty signatures avoids the division but contributes the
full default weight 20, not 0 (overlapper.py presets
`journalKeyDiffWeight = journalWt` and only overrides it when a journal
key is present); and the title term has no guard at all — on two empty
title signatures the denominator `len(tOne) + len(tTwo)` is zero and
Python raises ZeroDivisionError (modelled `none`) instead of
contributing 0. -/
theorem C7_counterexample :
    journalTerm dlStub "" "" = 20 ∧ journalTerm dlStub "" "" ≠ 0 ∧
    titleTerm dlStub "" "" = none := by
  refine ⟨rfl, by decide, rfl⟩

/-- C7, amended: the journal term is guarded — both signatures empty
yields the full default weight 20 with no division, exactly one empty
yields 0 with no division, and with both nonempty the denominator is
positive and the contribution lies in [0, 20]; the title term is
unguarded — both signatures empty reaches a zero denominator and raises
(modelled `none`), and whenever at least one is nonempty the denominator
is positive and the contribution lies in [0, 30]. -/
theorem C7_zero_denominators (dl : String → String → Nat) (hdl : DlBound dl) :
    (∀ j1 j2 : String, (j1 = "" → j2 = "" → journalTerm dl j1 j2 = 20) ∧
      (j1 = "" → j2 ≠ "" → journalTerm dl j1 j2 = 0) ∧
      (j1 ≠ "" → j2 = "" → journalTerm dl j1 j2 = 0) ∧
      0 ≤ journalTerm dl j1 j2 ∧ journalTerm dl j1 j2 ≤ 20) ∧
    (∀ t1 t2 : String, (t1.length + t2.length = 0 → titleTerm dl t1 t2 = none) ∧
      (t1.length + t2.length ≠ 0 →
        ∃ v, titleTerm dl t1 t2 = some v ∧ 0 ≤ v ∧ v ≤ 30)) := by
  constructor
  · intro j1 j2
    refine ⟨?_, ?_, ?_, journalTerm_range hdl j1 j2⟩
    · intro h1 h2
      unfold journalTerm
      rw [if_neg (fun h => h.1 h1), if_neg (fun h => h.elim (fun h3 => h3 h1) (fun h3 => h3 h2))]
    · intro h1 h2
      unfold journalTerm
      rw [if_neg (fun h => h.1 h1), if_pos (Or.inr h2)]
    · intro h1 h2
      unfold journalTerm
      rw [if_neg (fun h => h.2 h2), if_pos (Or.inl h1)]
  · intro t1 t2
    constructor
    · intro h
      unfold titleTerm
      rw [if_pos h]
    · intro h
      exact titleTerm_range hdl h

/-- C7, witness: the amended theorem applied at concrete signatures —
empty/empty journal keys give 20, one-sided emptiness gives 0, and a
nonempty title pair gets a defined score in range. -/
theorem C7_witness :
    journalTerm dlStub "" "" = 20 ∧ journalTerm dlStub "" "jex" = 0 ∧
    (∃ v, titleTerm dlStub "ab" "" = some v ∧ 0 ≤ v ∧ v ≤ 30) :=
  ⟨(C7_zero_denominators dlStub (fun s t => by unfold dlStub; split <;> simp) |>.1 "" "").1 rfl rfl,
   ((C7_zero_denominators dlStub (fun s t => by unfold dlStub; split <;> simp) |>.1 "" "jex").2.1)
     rfl (by decide),
   (C7_zero_denominators dlStub (fun s t => by unfold dlStub; split <;> simp) |>.2 "ab" "").2
     (by decide)⟩

/-! ## Claim C8 -/

/-- C8, counterexample.  The year contribution checks string equality
before the sentinel checks, so two records whose author-key year fields
are both `"NoYear"` (or both `"."`) score the full 20, while the claim
requires 0 whenever either side is `"NoYear"` or missing. -/
theorem C8_counterexample :
    yearTerm "NoYear" "NoYear" = 20 ∧ yearTerm "NoYear" "NoYear" ≠ 0 ∧
    yearTerm "." "." = 20 := by
  refine ⟨rfl, by decide, rfl⟩

/-- C8, amended: the year contribution is 20 whenever the two trailing
year fields are string-equal — including when both are `"NoYear"` or
both `"."` (missing); when they differ, a `"NoYear"` or `"."` on either
side gives 0; otherwise both are converted with `int()` inside the
`try`: a conversion failure on either side is caught and gives 0 (the
contribution is a total function — no exception propagates), a
difference of exactly 1 gives 16, of exactly 2 gives 12, anything else
0. -/
theorem C8_year_contract :
    (∀ y : String, yearTerm y y = 20) ∧
    (∀ y1 y2 : String, y1 ≠ y2 →
      (y1 = "NoYear" ∨ y2 = "NoYear" ∨ y1 = "." ∨ y2 = ".") → yearTerm y1 y2 = 0) ∧
    (∀ y1 y2 : String, y1 ≠ y2 →
      ¬ (y1 = "NoYear" ∨ y2 = "NoYear" ∨ y1 = "." ∨ y2 = ".") →
      (pyInt y1 = none ∨ pyInt y2 = none) → yearTerm y1 y2 = 0) ∧
    (∀ (y1 y2 : String) (a b : Int), y1 ≠ y2 →
      ¬ (y1 = "NoYear" ∨ y2 = "NoYear" ∨ y1 = "." ∨ y2 = ".") →
      pyInt y1 = some a → pyInt y2 = some b →
      yearTerm y1 y2 =
        if a - 1 = b ∨ a + 1 = b then 16
        else if a - 2 = b ∨ a + 2 = b then 12
        else 0) := by
  refine ⟨?_, ?_, ?_, ?_⟩
  · intro y
    unfold yearTerm
    rw [if_pos rfl]
  · intro y1 y2 h1 h2
    unfold yearTerm
    rw [if_neg h1, if_pos h2]
  · intro y1 y2 h1 h2 h3
    unfold yearTerm
    rw [if_neg h1, if_neg h2]
    rcases h3 with h3 | h3
    · rw [h3]
    · rw [h3]
      cases pyInt y1 <;> rfl
  · intro y1 y2 a b h1 h2 hp1 hp2
    unfold yearTerm
    rw [if_neg h1, if_neg h2, hp1, hp2]

/-- C8, witness: concrete year pairs — equal years 20, sentinel vs year
0, off-by-one 16, off-by-two 12, unparsable year caught as 0. -/
theorem C8_witness :
    yearTerm "2019" "2019" = 20 ∧ yearTerm "NoYear" "2019" = 0 ∧
    yearTerm "2019" "2020" = 16 ∧ yearTerm "2019" "2017" = 12 ∧
    yearTerm "abcd" "2019" = 0 :=
  ⟨C8_year_contract.1 "2019",
   C8_year_contract.2.1 "NoYear" "2019" (by decide) (Or.inl rfl),
   by
     rw [C8_year_contract.2.2.2 "2019" "2020" 2019 2020 (by decide) (by decide)
       (by decide) (by decide)]
     decide,
   by
     rw [C8_year_contract.2.2.2 "2019" "2017" 2019 2017 (by decide) (by decide)
       (by decide) (by decide)]
     decide,
   C8_year_contract.2.2.1 "abcd" "2019" (by decide) (by decide) (Or.inl (by decide))⟩

/-! ## Claim C5 -/

theorem countPair_append (l1 l2 : List (String × String)) (a b : String) :
    countPair (l1 ++ l2) a b = countPair l1 a b + countPair l2 a b := by
  unfold countPair
  rw [List.filter_append, List.length_append]

theorem countPair_cons (p : String × String) (l : List (String × String)) (a b : String) :
    countPair (p :: l) a b = countPair [p] a b + countPair l a b := by
  have : p :: l = [p] ++ l := rfl
  rw [this, countPair_append]

theorem setDist_isSome {m : DistMap} {a b : String} {v : Int} {x y : String}
    (h : (m x y).isSome) : (setDist m a b v x y).isSome := by
  unfold setDist
  split
  · rfl
  · exact h

theorem setDist_other {m : DistMap} {a b : String} {v : Int} {x y : String}
    (h : ¬ (x = a ∧ y = b)) : setDist m a b v x y = m x y := by
  unfold setDist
  rw [if_neg h]

theorem pairStore_sym {m : DistMap} {idList : List String}
    (hsym : ∀ x y, x ∈ idList → y ∈ idList → m x y = m y x) (a b : String) (v : Int) :
    ∀ x y, x ∈ idList → y ∈ idList →
      setDist (setDist m a b v) b a v x y = setDist (setDist m a b v) b a v y x := by
  intro x y hx hy
  unfold setDist
  split_ifs <;> first | rfl | tauto

theorem pairStore_range {dl : String → String → Nat} (hdl : DlBound dl)
    {m : DistMap} {idList : List String}
    (hrange : ∀ x, x ∈ idList → ∀ y v, m x y = some v → 0 ≤ v ∧ v ≤ 100)
    {e1 e2 : Entry} {a b : String} {v : Int} (hv : pairScore dl e1 e2 = some v) :
    ∀ x, x ∈ idList → ∀ y w, setDist (setDist m a b v) b a v x y = some w →
      0 ≤ w ∧ w ≤ 100 := by
  intro x hx y w hw
  unfold setDist at hw
  split_ifs at hw
  · cases hw
    exact pairScore_range hdl hv
  · cases hw
    exact pairScore_range hdl hv
  · exact hrange x hx y w hw

theorem distInner_post (dl : String → String → Nat) (hdl : DlBound dl) (dbs : List Entry)
    (idList : List String) (a : String) (e1 : Entry) :
    ∀ (bs : List String) (m : DistMap) (log : List (String × String)) (m2 : DistMap)
      (log2 : List (String × String)),
      distInner dl dbs a e1 bs m log = some (m2, log2) →
      (∀ x y, x ∈ idList → y ∈ idList → m x y = m y x) →
      (∀ x, x ∈ idList → ∀ y v, m x y = some v → 0 ≤ v ∧ v ≤ 100) →
      a ∈ idList → (∀ b2 ∈ bs, b2 ∈ idList) →
      (∀ b2 ∈ bs, b2 ≠ a → (m2 a b2).isSome) ∧
      (∀ x y, x ∈ idList → y ∈ idList → m2 x y = m2 y x) ∧
      (∀ x, x ∈ idList → ∀ y v, m2 x y = some v → 0 ≤ v ∧ v ≤ 100) ∧
      (∀ x y, (m x y).isSome → (m2 x y).isSome) ∧
      (∃ ext, log2 = log ++ ext ∧
        ∀ p q, p ∈ idList → q ∈ idList →
          ((m p q).isNone → countPair ext p q ≤ 1) ∧
          ((m p q).isSome → countPair ext p q = 0) ∧
          (1 ≤ countPair ext p q → (m2 p q).isSome)) := by
  intro bs
  induction bs with
  | nil =>
    intro m log m2 log2 h hsym hrange ha hbs
    cases h
    refine ⟨by simp, hsym, hrange, fun x y h => h, ⟨[], by simp, ?_⟩⟩
    intro p q hp hq
    refine ⟨fun _ => by simp [countPair], fun _ => by simp [countPair], fun hc => ?_⟩
    simp [countPair] at hc
  | cons b rest ih =>
    intro m log m2 log2 h hsym hrange ha hbs
    unfold distInner at h
    by_cases hguard : (m a b).isNone = true ∧ a ≠ b
    · rw [if_pos hguard] at h
      cases hfind : dbs.find? (fun r => r.id = b) with
      | none => simp only [hfind] at h; cases h
      | some e2 =>
        simp only [hfind] at h
        cases hps : pairScore dl e1 e2 with
        | none => simp only [hps] at h; cases h
        | some v =>
          simp only [hps] at h
          have hb : b ∈ idList := hbs b (by simp)
          have hsym2 := pairStore_sym hsym a b v
          have hrange2 := pairStore_range hdl hrange (a := a) (b := b) hps
          obtain ⟨hT, hS, hR, hM, ⟨ext, hlog, hcnt⟩⟩ :=
            ih (setDist (setDist m a b v) b a v) (log ++ [(a, b)]) m2 log2 h
              hsym2 hrange2 ha (fun b2 hb2 => hbs b2 (by simp [hb2]))
          have hstored : (setDist (setDist m a b v) b a v a b).isSome := by
            unfold setDist
            rw [if_neg (fun hh => hguard.2 hh.1), if_pos ⟨rfl, rfl⟩]
            rfl
          have hstored2 : (setDist (setDist m a b v) b a v b a).isSome := by
            unfold setDist
            rw [if_pos ⟨rfl, rfl⟩]
            rfl
          refine ⟨?_, hS, hR, ?_, ?_⟩
          · intro b2 hb2 hb2a
            rcases List.mem_cons.mp hb2 with rfl | hb2r
            · exact hM a b2 hstored
            · exact hT b2 hb2r hb2a
          · intro x y hxy
            exact hM x y (setDist_isSome (setDist_isSome hxy))
          · refine ⟨(a, b) :: ext, by simp [hlog], ?_⟩
            intro p q hp hq
            have hcnt2 := hcnt p q hp hq
            by_cases hpq : (p, q) = (a, b) ∨ (p, q) = (b, a)
            · have hfacts : countPair [(a, b)] p q = 1 ∧ (m p q).isNone = true ∧
                  (setDist (setDist m a b v) b a v p q).isSome = true := by
                rcases hpq with h1 | h1
                · have hp1 : p = a := congrArg Prod.fst h1
                  have hq1 : q = b := congrArg Prod.snd h1
                  refine ⟨by rw [hp1, hq1]; simp [countPair], ?_, ?_⟩
                  · rw [hp1, hq1]
                    exact hguard.1
                  · rw [hp1, hq1]
                    exact hstored
                · have hp1 : p = b := congrArg Prod.fst h1
                  have hq1 : q = a := congrArg Prod.snd h1
                  refine ⟨by rw [hp1, hq1]; simp [countPair], ?_, ?_⟩
                  · rw [hp1, hq1, hsym b a hb ha]
                    exact hguard.1
                  · rw [hp1, hq1]
                    exact hstored2
              obtain ⟨hone, hmpq, hm2pq⟩ := hfacts
              have hext0 : countPair ext p q = 0 := hcnt2.2.1 hm2pq
              rw [countPair_cons, hone, hext0]
              refine ⟨fun _ => by omega, fun hsome => ?_, fun _ => hM p q hm2pq⟩
              exfalso
              rw [Option.isNone_iff_eq_none.mp hmpq] at hsome
              cases hsome
            · have h2 : ¬ ((a, b) = (p, q) ∨ (a, b) = (q, p)) := by
                intro hcon
                rcases hcon with hcon | hcon
                · exact hpq (Or.inl hcon.symm)
                · refine hpq (Or.inr ?_)
                  have h3 : (q, p) = (a, b) := hcon.symm
                  have hq1 : q = a := congrArg Prod.fst h3
                  have hp1 : p = b := congrArg Prod.snd h3
                  rw [hp1, hq1]
              have hzero : countPair [(a, b)] p q = 0 := by
                simp only [countPair, List.filter_cons, List.filter_nil]
                rw [if_neg (by simpa using h2)]
                rfl
              have hcell : setDist (setDist m a b v) b a v p q = m p q := by
                rw [setDist_other, setDist_other]
                · intro hh
                  refine hpq (Or.inl ?_)
                  rw [hh.1, hh.2]
                · intro hh
                  refine hpq (Or.inr ?_)
                  rw [hh.1, hh.2]
              rw [countPair_cons, hzero]
              rw [hcell] at hcnt2
              simpa using hcnt2
    · rw [if_neg hguard] at h
      obtain ⟨hT, hS, hR, hM, ⟨ext, hlog, hcnt⟩⟩ :=
        ih m log m2 log2 h hsym hrange ha (fun b2 hb2 => hbs b2 (by simp [hb2]))
      refine ⟨?_, hS, hR, hM, ⟨ext, hlog, hcnt⟩⟩
      intro b2 hb2 hb2a
      rcases List.mem_cons.mp hb2 with rfl | hb2r
      · have hsome : (m a b2).isSome := by
          cases hmm : m a b2 with
          | none =>
            exfalso
            exact hguard ⟨by rw [hmm]; rfl, fun hab => hb2a hab.symm⟩
          | some w => rfl
        exact hM a b2 hsome
      · exact hT b2 hb2r hb2a

theorem distOuter_post (dl : String → String → Nat) (hdl : DlBound dl) (dbs : List Entry)
    (idList : List String) :
    ∀ (as : List String) (m : DistMap) (log : List (String × String)) (m2 : DistMap)
      (log2 : List (String × String)),
      distOuter dl dbs idList as m log = some (m2, log2) →
      (∀ x y, x ∈ idList → y ∈ idList → m x y = m y x) →
      (∀ x, x ∈ idList → ∀ y v, m x y = some v → 0 ≤ v ∧ v ≤ 100) →
      (∀ a ∈ as, a ∈ idList) →
      (∀ a ∈ as, ∀ b ∈ idList, b ≠ a → (m2 a b).isSome) ∧
      (∀ x y, x ∈ idList → y ∈ idList → m2 x y = m2 y x) ∧
      (∀ x, x ∈ idList → ∀ y v, m2 x y = some v → 0 ≤ v ∧ v ≤ 100) ∧
      (∀ x y, (m x y).isSome → (m2 x y).isSome) ∧
      (∃ ext, log2 = log ++ ext ∧
        ∀ p q, p ∈ idList → q ∈ idList →
          ((m p q).isNone → countPair ext p q ≤ 1) ∧
          ((m p q).isSome → countPair ext p q = 0) ∧
          (1 ≤ countPair ext p q → (m2 p q).isSome)) := by
  intro as
  induction as with
  | nil =>
    intro m log m2 log2 h hsym hrange has
    cases h
    refine ⟨by simp, hsym, hrange, fun x y hh => hh, ⟨[], by simp, ?_⟩⟩
    intro p q hp hq
    refine ⟨fun _ => by simp [countPair], fun _ => by simp [countPair], fun hc => ?_⟩
    simp [countPair] at hc
  | cons a rest ih =>
    intro m log m2 log2 h hsym hrange has
    unfold distOuter at h
    cases hfind : dbs.find? (fun r => r.id = a) with
    | none => simp only [hfind] at h; cases h
    | some e1 =>
      simp only [hfind] at h
      cases hin : distInner dl dbs a e1 idList m log with
      | none => simp only [hin] at h; cases h
      | some pr =>
        obtain ⟨mi, logi⟩ := pr
        simp only [hin] at h
        have ha : a ∈ idList := has a (by simp)
        obtain ⟨Ti, Si, Ri, Mi, ⟨exti, hlogi, hcnti⟩⟩ :=
          distInner_post dl hdl dbs idList a e1 idList m log mi logi hin hsym hrange ha
            (fun b2 hb2 => hb2)
        obtain ⟨To, So, Ro, Mo, ⟨exto, hlogo, hcnto⟩⟩ :=
          ih mi logi m2 log2 h Si Ri (fun a2 ha2 => has a2 (by simp [ha2]))
        refine ⟨?_, So, Ro, fun x y hh => Mo x y (Mi x y hh), ?_⟩
        · intro a2 ha2 b hb hba
          rcases List.mem_cons.mp ha2 with rfl | ha2r
          · exact Mo a2 b (Ti b hb hba)
          · exact To a2 ha2r b hb hba
        · refine ⟨exti ++ exto, by rw [hlogo, hlogi, List.append_assoc], ?_⟩
          intro p q hp hq
          have hci := hcnti p q hp hq
          have hco := hcnto p q hp hq
          rw [countPair_append]
          refine ⟨?_, ?_, ?_⟩
          · intro hnone
            by_cases h1 : 1 ≤ countPair exti p q
            · have hsome : (mi p q).isSome := hci.2.2 h1
              have h2 : countPair exto p q = 0 := hco.2.1 hsome
              have h3 : countPair exti p q ≤ 1 := hci.1 hnone
              omega
            · have h2 : countPair exti p q = 0 := by omega
              cases hmi : mi p q with
              | none =>
                have h3 : countPair exto p q ≤ 1 := hco.1 (by rw [hmi]; rfl)
                omega
              | some w =>
                have h3 : countPair exto p q = 0 := hco.2.1 (by rw [hmi]; rfl)
                omega
          · intro hsome
            have h1 : countPair exti p q = 0 := hci.2.1 hsome
            have h2 : countPair exto p q = 0 := hco.2.1 (Mi p q hsome)
            omega
          · intro hc
            by_cases h1 : 1 ≤ countPair exto p q
            · exact hco.2.2 h1
            · have h2 : 1 ≤ countPair exti p q := by omega
              exact Mo p q (hci.2.2 h2)

theorem dlStub_bound : DlBound dlStub := by
  intro s t
  unfold dlStub
  split
  · exact Nat.zero_le _
  · exact le_refl _

/-- C5, counterexample.  The distance for the pair of the two Embase
records sharing a PMID is computed twice in one run of
`combineOverlaps`: the source tag is not the hardcoded `'MED'`, so
`findOverlaps` re-runs `subGroupV2` for the second member of the
component, which wipes and refills the members' distance rows.  Hence
"each unordered pair is computed once per run" is false. -/
theorem C5_counterexample :
    (combineOverlapsRun dlStub embSources).map
      (fun st => countPair st.over.distLog "EMB_00001" "EMB_00002") = some 2 ∧
    (2 : Nat) ≠ 1 := by
  exact ⟨by decide, by decide⟩

/-- C5, amended: within one invocation of the distance phase of
`subGroupV2` the cache is symmetric on the component — both directed
entries of every unordered pair of distinct members are stored together
and equal — every pair of distinct members ends up with a stored score,
each stored score lies in [0, 100] (in particular it is never the
internal 9999 sentinel, which is always replaced by the heuristic before
storing), and each unordered pair is computed at most once per
invocation; but a component may be re-processed, recomputing its pairs,
once for each of its records belonging to a source other than the
hardcoded `'MED'` tag. -/
theorem C5_distance_cache_contract (dl : String → String → Nat) (hdl : DlBound dl)
    (dbs : List Entry) (idList : List String) (m : DistMap)
    (log : List (String × String)) (m2 : DistMap) (log2 : List (String × String))
    (h : distancePhase dl dbs idList m log = some (m2, log2)) :
    (∀ a ∈ idList, ∀ b ∈ idList, a ≠ b →
      m2 a b = m2 b a ∧ ∃ v, m2 a b = some v ∧ 0 ≤ v ∧ v ≤ 100 ∧ v ≠ 9999) ∧
    (∃ ext, log2 = log ++ ext ∧
      ∀ a ∈ idList, ∀ b ∈ idList, countPair ext a b ≤ 1) := by
  unfold distancePhase at h
  have hsym0 : ∀ x y, x ∈ idList → y ∈ idList →
      resetRows idList m x y = resetRows idList m y x := by
    intro x y hx hy
    unfold resetRows
    rw [if_pos hx, if_pos hy]
  have hrange0 : ∀ x, x ∈ idList → ∀ y v, resetRows idList m x y = some v →
      0 ≤ v ∧ v ≤ 100 := by
    intro x hx y v hv
    unfold resetRows at hv
    rw [if_pos hx] at hv
    cases hv
  obtain ⟨T, S, R, M, ⟨ext, hlog, hcnt⟩⟩ :=
    distOuter_post dl hdl dbs idList idList (resetRows idList m) log m2 log2 h hsym0
      hrange0 (fun a ha => ha)
  constructor
  · intro a ha b hb hab
    have hsome : (m2 a b).isSome := T a ha b hb (fun hba => hab hba.symm)
    refine ⟨S a b ha hb, ?_⟩
    cases hv : m2 a b with
    | none => rw [hv] at hsome; cases hsome
    | some v =>
      obtain ⟨h0, h100⟩ := R a ha b v hv
      exact ⟨v, rfl, h0, h100, by omega⟩
  · refine ⟨ext, hlog, ?_⟩
    intro a ha b hb
    have := (hcnt a b ha hb).1 (by unfold resetRows; rw [if_pos ha]; rfl)
    exact this

/-- C5, witness: the amended contract applied to the concrete Embase
component — the evaluated distance phase succeeds and the theorem yields
symmetry and an in-range stored score for the pair. -/
theorem C5_witness :
    (distancePhase dlStub [embOne, embTwo] ["EMB_00001", "EMB_00002"]
        (fun _ _ => none) []).elim False
      (fun pr => pr.1 "EMB_00001" "EMB_00002" = pr.1 "EMB_00002" "EMB_00001" ∧
        ∃ v, pr.1 "EMB_00001" "EMB_00002" = some v ∧ 0 ≤ v ∧ v ≤ 100 ∧ v ≠ 9999) := by
  cases hph : distancePhase dlStub [embOne, embTwo] ["EMB_00001", "EMB_00002"]
      (fun _ _ => none) [] with
  | none =>
    exfalso
    have hs : (distancePhase dlStub [embOne, embTwo] ["EMB_00001", "EMB_00002"]
        (fun _ _ => none) []).isSome = true := by decide
    rw [hph] at hs
    cases hs
  | some pr =>
    obtain ⟨m2, log2⟩ := pr
    have hc := C5_distance_cache_contract dlStub dlStub_bound [embOne, embTwo]
      ["EMB_00001", "EMB_00002"] (fun _ _ => none) [] m2 log2 hph
    exact (hc.1 "EMB_00001" (by decide) "EMB_00002" (by decide) (by decide))

/-! ## Claim C4 -/

theorem updMap_same {α : Type} (f : String → Option α) (k : String) (v : α) :
    updMap f k v k = some v := by
  unfold updMap
  rw [if_pos rfl]

theorem updMap_other {α : Type} (f : String → Option α) {k x : String} (v : α)
    (h : x ≠ k) : updMap f k v x = f x := by
  unfold updMap
  rw [if_neg h]

theorem updMap_isSome {α : Type} {f : String → Option α} {k x : String} {v : α}
    (h : (f x).isSome) : (updMap f k v x).isSome := by
  unfold updMap
  split
  · rfl
  · exact h

theorem pairStep_same (mg : Nat) (dmap : DistMap) (st : ClusterSt) (a : String) :
    pairStep mg dmap st a a = some st := by
  unfold pairStep
  rw [if_pos rfl]

theorem pairStep_both_assigned {mg : Nat} {dmap : DistMap} {st : ClusterSt} {a b : String}
    (h1 : (st.i2s a).isSome) (h2 : (st.i2s b).isSome) :
    pairStep mg dmap st a b = some st := by
  unfold pairStep
  by_cases hab : a = b
  · rw [if_pos hab]
  · rw [if_neg hab, if_pos ⟨h1, h2⟩]

theorem pairStep_low {mg : Nat} {dmap : DistMap} {st : ClusterSt} {a b : String} {d : Int}
    (hab : a ≠ b) (hnb : ¬ ((st.i2s a).isSome ∧ (st.i2s b).isSome))
    (hd : dmap a b = some d) (h90 : ¬ 90 ≤ d) :
    pairStep mg dmap st a b = some st := by
  unfold pairStep
  rw [if_neg hab, if_neg hnb]
  simp only [hd]
  rw [if_neg h90]

theorem pairStep_fresh {mg : Nat} {dmap : DistMap} {st : ClusterSt} {a b : String} {d : Int}
    (hab : a ≠ b) (hia : st.i2s a = none) (hib : st.i2s b = none)
    (hd : dmap a b = some d) (h90 : 90 ≤ d) :
    pairStep mg dmap st a b =
      some ⟨updMap (updMap st.i2s a (subgroupName mg st.groupNum)) b
              (subgroupName mg st.groupNum),
            updMap st.s2i (subgroupName mg st.groupNum) [a, b],
            some (subgroupName mg st.groupNum), st.groupNum + 1⟩ := by
  unfold pairStep
  rw [if_neg hab, if_neg (by simp [hia])]
  simp only [hd]
  rw [if_pos h90]
  simp only [hia, hib]

theorem pairStep_left_assigned {mg : Nat} {dmap : DistMap} {st : ClusterSt} {a b : String}
    {d : Int} {ga ng : String} {bucket : List String}
    (hab : a ≠ b) (hia : st.i2s a = some ga) (hib : st.i2s b = none)
    (hd : dmap a b = some d) (h90 : 90 ≤ d) (hng : st.nextGroup = some ng)
    (hs2i : st.s2i ng = some bucket) :
    pairStep mg dmap st a b =
      some { st with
              i2s := updMap st.i2s b ga,
              s2i := updMap st.s2i ng (bucket ++ [b]) } := by
  unfold pairStep
  rw [if_neg hab, if_neg (by simp [hib])]
  simp only [hd]
  rw [if_pos h90]
  simp only [hia, hng, hs2i]

theorem pairStep_right_assigned {mg : Nat} {dmap : DistMap} {st : ClusterSt} {a b : String}
    {d : Int} {gb ng : String} {bucket : List String}
    (hab : a ≠ b) (hia : st.i2s a = none) (hib : st.i2s b = some gb)
    (hd : dmap a b = some d) (h90 : 90 ≤ d) (hng : st.nextGroup = some ng)
    (hs2i : st.s2i ng = some bucket) :
    pairStep mg dmap st a b =
      some { st with
              i2s := updMap st.i2s a gb,
              s2i := updMap st.s2i ng (bucket ++ [a]) } := by
  unfold pairStep
  rw [if_neg hab, if_neg (by simp [hia])]
  simp only [hd]
  rw [if_pos h90]
  simp only [hia, hib, hng, hs2i]

theorem pairStep_total {mg : Nat} {dmap : DistMap} {idList : List String} {st : ClusterSt}
    {a b : String}
    (hD : ∀ x ∈ idList, ∀ y ∈ idList, x ≠ y → (dmap x y).isSome)
    (ha : a ∈ idList) (hb : b ∈ idList) (hinv : PassInv idList st) :
    ∃ st2, pairStep mg dmap st a b = some st2 ∧ PassInv idList st2 := by
  by_cases hab : a = b
  · subst hab
    exact ⟨st, pairStep_same mg dmap st a, hinv⟩
  · by_cases hboth : (st.i2s a).isSome ∧ (st.i2s b).isSome
    · exact ⟨st, pairStep_both_assigned hboth.1 hboth.2, hinv⟩
    · cases hd : dmap a b with
      | none =>
        exfalso
        have := hD a ha b hb hab
        rw [hd] at this
        cases this
      | some d =>
        by_cases h90 : 90 ≤ d
        · cases hia : st.i2s a with
          | some ga =>
            have hib : st.i2s b = none := by
              cases hib2 : st.i2s b with
              | none => rfl
              | some gb =>
                exact absurd ⟨by rw [hia]; rfl, by rw [hib2]; rfl⟩ hboth
            cases hng : st.nextGroup with
            | none =>
              exfalso
              have := hinv.1 hng a ha
              rw [hia] at this
              cases this
            | some ng =>
              cases hs2i : st.s2i ng with
              | none =>
                exfalso
                have := hinv.2 ng hng
                rw [hs2i] at this
                cases this
              | some bucket =>
                refine ⟨_, pairStep_left_assigned hab hia hib hd h90 hng hs2i, ?_, ?_⟩
                · intro hngn
                  simp only [hng] at hngn
                  cases hngn
                · intro ng2 hng2
                  simp only [hng] at hng2
                  cases hng2
                  show (updMap st.s2i ng (bucket ++ [b]) ng).isSome
                  rw [updMap_same]
                  rfl
          | none =>
            cases hib : st.i2s b with
            | some gb =>
              cases hng : st.nextGroup with
              | none =>
                exfalso
                have := hinv.1 hng b hb
                rw [hib] at this
                cases this
              | some ng =>
                cases hs2i : st.s2i ng with
                | none =>
                  exfalso
                  have := hinv.2 ng hng
                  rw [hs2i] at this
                  cases this
                | some bucket =>
                  refine ⟨_, pairStep_right_assigned hab hia hib hd h90 hng hs2i, ?_, ?_⟩
                  · intro hngn
                    simp only [hng] at hngn
                    cases hngn
                  · intro ng2 hng2
                    simp only [hng] at hng2
                    cases hng2
                    show (updMap st.s2i ng (bucket ++ [a]) ng).isSome
                    rw [updMap_same]
                    rfl
            | none =>
              refine ⟨_, pairStep_fresh hab hia hib hd h90, ?_, ?_⟩
              · intro hngn
                simp only at hngn
                cases hngn
              · intro ng2 hng2
                simp only at hng2
                cases hng2
                show (updMap st.s2i (subgroupName mg st.groupNum) [a, b]
                  (subgroupName mg st.groupNum)).isSome
                rw [updMap_same]
                rfl
        · exact ⟨st, pairStep_low hab hboth hd h90, hinv⟩

theorem passInner_total {mg : Nat} {dmap : DistMap} {idList : List String} {a : String}
    (hD : ∀ x ∈ idList, ∀ y ∈ idList, x ≠ y → (dmap x y).isSome) (ha : a ∈ idList) :
    ∀ (bs : List String), (∀ b ∈ bs, b ∈ idList) →
      ∀ st, PassInv idList st →
        ∃ st2, passInner mg dmap a bs st = some st2 ∧ PassInv idList st2 := by
  intro bs
  induction bs with
  | nil => intro _ st hinv; exact ⟨st, rfl, hinv⟩
  | cons b rest ih =>
    intro hbs st hinv
    obtain ⟨st1, hst1, hinv1⟩ := pairStep_total hD ha (hbs b (by simp)) hinv
    obtain ⟨st2, hst2, hinv2⟩ := ih (fun b2 hb2 => hbs b2 (by simp [hb2])) st1 hinv1
    refine ⟨st2, ?_, hinv2⟩
    unfold passInner
    rw [hst1]
    exact hst2

theorem passOuter_total {mg : Nat} {dmap : DistMap} {idList : List String}
    (hD : ∀ x ∈ idList, ∀ y ∈ idList, x ≠ y → (dmap x y).isSome) :
    ∀ (as : List String), (∀ a ∈ as, a ∈ idList) →
      ∀ st, PassInv idList st →
        ∃ st2, passOuter mg dmap idList as st = some st2 ∧ PassInv idList st2 := by
  intro as
  induction as with
  | nil => intro _ st hinv; exact ⟨st, rfl, hinv⟩
  | cons a rest ih =>
    intro has st hinv
    obtain ⟨st1, hst1, hinv1⟩ :=
      passInner_total hD (has a (by simp)) idList (fun b hb => hb) st hinv
    obtain ⟨st2, hst2, hinv2⟩ := ih (fun a2 ha2 => has a2 (by simp [ha2])) st1 hinv1
    refine ⟨st2, ?_, hinv2⟩
    unfold passOuter
    rw [hst1]
    exact hst2

theorem singletonPhase_cons (mg : Nat) (a : String) (as : List String) (st : ClusterSt) :
    singletonPhase mg (a :: as) st =
      if (st.i2s a).isSome then singletonPhase mg as st
      else singletonPhase mg as
        { st with
           i2s := updMap st.i2s a (subgroupName mg st.groupNum),
           s2i := updMap st.s2i (subgroupName mg st.groupNum) [a],
           nextGroup := some (subgroupName mg st.groupNum),
           groupNum := st.groupNum + 1 } := rfl

theorem singletonPhase_mono {mg : Nat} :
    ∀ (l : List String) (st : ClusterSt) (x : String),
      (st.i2s x).isSome → ((singletonPhase mg l st).i2s x).isSome := by
  intro l
  induction l with
  | nil => intro st x h; exact h
  | cons a rest ih =>
    intro st x h
    rw [singletonPhase_cons]
    by_cases hsa : (st.i2s a).isSome
    · rw [if_pos hsa]
      exact ih st x h
    · rw [if_neg hsa]
      exact ih _ x (updMap_isSome h)

theorem singletonPhase_keeps {mg : Nat} :
    ∀ (l : List String) (st : ClusterSt) (x : String),
      (st.i2s x).isSome → (singletonPhase mg l st).i2s x = st.i2s x := by
  intro l
  induction l with
  | nil => intro st x h; rfl
  | cons a rest ih =>
    intro st x h
    rw [singletonPhase_cons]
    by_cases hsa : (st.i2s a).isSome
    · rw [if_pos hsa]
      exact ih st x h
    · rw [if_neg hsa]
      have hxa : x ≠ a := by
        intro hx
        subst hx
        exact hsa h
      have hup : updMap st.i2s a (subgroupName mg st.groupNum) x = st.i2s x :=
        updMap_other st.i2s _ hxa
      have hk := ih
        { st with
           i2s := updMap st.i2s a (subgroupName mg st.groupNum),
           s2i := updMap st.s2i (subgroupName mg st.groupNum) [a],
           nextGroup := some (subgroupName mg st.groupNum),
           groupNum := st.groupNum + 1 } x (by show (updMap st.i2s a _ x).isSome; rw [hup]; exact h)
      rw [hk]
      exact hup

theorem singletonPhase_assigns {mg : Nat} :
    ∀ (l : List String) (st : ClusterSt) (a : String), a ∈ l →
      ((singletonPhase mg l st).i2s a).isSome := by
  intro l
  induction l with
  | nil => intro st a h; cases h
  | cons b rest ih =>
    intro st a ha
    rcases List.mem_cons.mp ha with rfl | har
    · rw [singletonPhase_cons]
      by_cases hsa : (st.i2s a).isSome
      · rw [if_pos hsa]
        exact singletonPhase_mono rest st a hsa
      · rw [if_neg hsa]
        refine singletonPhase_mono rest _ a ?_
        show (updMap st.i2s a (subgroupName mg st.groupNum) a).isSome
        rw [updMap_same]
        rfl
    · rw [singletonPhase_cons]
      by_cases hsb : (st.i2s b).isSome
      · rw [if_pos hsb]
        exact ih st a har
      · rw [if_neg hsb]
        exact ih _ a har

/-! ### Claim C4: the clustering pass -/

/-- C4 counterexample: the pair order is NOT the sorted member ids.  On
the synthetic component processed in its discovery order
`["A", "E", "C", "D", "B"]` the members `B` and `C` end in different
subgroups, while processing the same component in sorted order merges
them; and the pipeline really does hand `subGroupV2` an unsorted member
list, as the cross-source fixture shows. -/
theorem C4_counterexample :
    ((runPass synDist synOrder).map (fun c => decide (c.i2s "B" = c.i2s "C")) = some false) ∧
    ((runPass synDist (sortIds synOrder)).map
        (fun c => decide (c.i2s "B" = c.i2s "C")) = some true) ∧
    sortIds synOrder ≠ synOrder ∧
    closureOf (globalIndexes crossDb) crossDb crossMed ≠
      sortIds (closureOf (globalIndexes crossDb) crossDb crossMed) := by
  refine ⟨?_, ?_, ?_, ?_⟩ <;> decide

/-- C4 (amended): `subGroupV2` clusters each component in a single
left-to-right pass over all member pairs in the order the member list
was discovered (not sorted).  For each pair: a pair with equal ids, or
whose members are both already assigned, or whose score is below 90,
changes nothing; a scoring pair with both members fresh creates a new
subgroup named `mg.groupNum` holding exactly the two and bumps the
counter; a scoring pair with exactly one member assigned gives the other
member that member's subgroup id, but appends it to the bucket of the
most recently created subgroup (`nextGroup`), not necessarily the bucket
it joined.  The pass and the trailing singleton sweep always succeed on
a component with a total distance map, and afterwards every member has a
subgroup. -/
theorem C4_cluster_pass_contract :
    (∀ (mg : Nat) (dmap : DistMap) (st : ClusterSt) (a : String),
        pairStep mg dmap st a a = some st) ∧
    (∀ (mg : Nat) (dmap : DistMap) (st : ClusterSt) (a b : String),
        (st.i2s a).isSome → (st.i2s b).isSome → pairStep mg dmap st a b = some st) ∧
    (∀ (mg : Nat) (dmap : DistMap) (st : ClusterSt) (a b : String) (d : Int),
        a ≠ b → ¬ ((st.i2s a).isSome ∧ (st.i2s b).isSome) →
        dmap a b = some d → ¬ 90 ≤ d → pairStep mg dmap st a b = some st) ∧
    (∀ (mg : Nat) (dmap : DistMap) (st : ClusterSt) (a b : String) (d : Int),
        a ≠ b → st.i2s a = none → st.i2s b = none →
        dmap a b = some d → 90 ≤ d →
        pairStep mg dmap st a b =
          some ⟨updMap (updMap st.i2s a (subgroupName mg st.groupNum)) b
                  (subgroupName mg st.groupNum),
                updMap st.s2i (subgroupName mg st.groupNum) [a, b],
                some (subgroupName mg st.groupNum), st.groupNum + 1⟩) ∧
    (∀ (mg : Nat) (dmap : DistMap) (st : ClusterSt) (a b : String) (d : Int)
        (ga ng : String) (bucket : List String),
        a ≠ b → st.i2s a = some ga → st.i2s b = none →
        dmap a b = some d → 90 ≤ d → st.nextGroup = some ng →
        st.s2i ng = some bucket →
        pairStep mg dmap st a b =
          some { st with
                  i2s := updMap st.i2s b ga,
                  s2i := updMap st.s2i ng (bucket ++ [b]) }) ∧
    (∀ (dmap : DistMap) (l : List String),
        (∀ x ∈ l, ∀ y ∈ l, x ≠ y → (dmap x y).isSome) →
        ∃ c, runPass dmap l = some c ∧ ∀ a ∈ l, (c.i2s a).isSome) := by
  refine ⟨pairStep_same, fun _ _ _ _ _ => pairStep_both_assigned,
    fun _ _ _ _ _ _ hab hnb hd h90 => pairStep_low hab hnb hd h90,
    fun _ _ _ _ _ _ hab hia hib hd h90 => pairStep_fresh hab hia hib hd h90,
    fun _ _ _ _ _ _ _ _ _ hab hia hib hd h90 hng hs2i =>
      pairStep_left_assigned hab hia hib hd h90 hng hs2i, ?_⟩
  intro dmap l hD
  have hfresh : PassInv l
      ⟨fun _ => none, fun s => if s = "." then some [] else none, none, 0⟩ :=
    ⟨fun _ a _ => rfl, fun ng hng => by cases hng⟩
  obtain ⟨st2, hst2, _⟩ := passOuter_total hD l (fun a ha => ha) _ hfresh
  refine ⟨singletonPhase 1 l st2, ?_, ?_⟩
  · unfold runPass
    rw [hst2]
    rfl
  · intro a ha
    exact singletonPhase_assigns l st2 a ha

/-- C4 witness: the totality-and-coverage part of the contract applied
to the two-member component `["A", "B"]` of the synthetic distance
map. -/
theorem C4_witness :
    ∃ c, runPass synDist ["A", "B"] = some c ∧
      ∀ a ∈ (["A", "B"] : List String), (c.i2s a).isSome :=
  C4_cluster_pass_contract.2.2.2.2.2 synDist ["A", "B"] (by decide)

/-! ### Claim C9: the output table -/

theorem processRecord_rows {dl : String → String → Nat} {dbs : List Entry}
    {g : GlobalIndexes} {ab : String} {st : FullSt} {e : Entry} {st2 : FullSt}
    (h : processRecord dl dbs g ab st e = some st2) :
    ∃ r, st2.rows = st.rows ++ [r] := by
  unfold processRecord at h
  simp only [] at h
  split at h
  · cases h
  · rename_i st1 heq
    have hrows1 : st1.rows = st.rows := by
      split at heq
      · split at heq
        · split at heq
          · cases heq
          · cases heq
            rfl
        · cases heq
          rfl
      · cases heq
        rfl
    split at h
    · cases h
    · split at h
      · cases h
      · split at h
        · cases h
        · split at h
          · cases h
          · split at h
            · cases h
            · split at h
              · cases h
              · cases h
                exact ⟨_, by rw [← hrows1]⟩

theorem findOverlaps_rows {dl : String → String → Nat} {dbs : List Entry}
    {g : GlobalIndexes} {ab : String} :
    ∀ (recs : List Entry) (st st2 : FullSt),
      findOverlaps dl dbs g ab recs st = some st2 →
      st2.rows.length = st.rows.length + recs.length := by
  intro recs
  induction recs with
  | nil =>
    intro st st2 h
    unfold findOverlaps at h
    cases h
    rfl
  | cons e rest ih =>
    intro st st2 h
    unfold findOverlaps at h
    cases hp : processRecord dl dbs g ab st e with
    | none =>
      rw [hp] at h
      cases h
    | some st1 =>
      simp only [hp] at h
      obtain ⟨r, hr⟩ := processRecord_rows hp
      have h2 := ih st1 st2 h
      rw [hr] at h2
      simp only [List.length_append, List.length_cons, List.length_nil] at h2 ⊢
      omega

theorem combineAux_rows {dl : String → String → Nat} {dbs : List Entry}
    {g : GlobalIndexes} :
    ∀ (srcs : List (String × List Entry)) (st st2 : FullSt),
      combineAux dl dbs g srcs st = some st2 →
      st2.rows.length = st.rows.length + ((srcs.map fun s => s.2.length).sum) := by
  intro srcs
  induction srcs with
  | nil =>
    intro st st2 h
    unfold combineAux at h
    cases h
    rfl
  | cons p rest ih =>
    intro st st2 h
    obtain ⟨dbName, recs⟩ := p
    unfold combineAux at h
    cases hf : findOverlaps dl dbs g (dbAbbrOf dbName) recs st with
    | none =>
      rw [hf] at h
      cases h
    | some st1 =>
      simp only [hf] at h
      have h1 := findOverlaps_rows recs st st1 hf
      have h2 := ih st1 st2 h
      simp only [List.map_cons, List.sum_cons]
      omega

theorem rowLe_total (a b : Row) : rowLe a b = true ∨ rowLe b a = true := by
  unfold rowLe
  cases hga : a.group with
  | none =>
    cases hgb : b.group with
    | none => exact lexLe_total a.subgrp.data b.subgrp.data
    | some g2 => right; rfl
  | some g1 =>
    cases hgb : b.group with
    | none => left; rfl
    | some g2 =>
      rcases Nat.lt_trichotomy g1 g2 with h | h | h
      · left
        simp [h]
      · subst h
        simp only [Nat.lt_irrefl, if_false]
        exact lexLe_total a.subgrp.data b.subgrp.data
      · right
        simp [h]

theorem rowLe_trans {a b c : Row} (hab : rowLe a b = true) (hbc : rowLe b c = true) :
    rowLe a c = true := by
  unfold rowLe at hab hbc ⊢
  cases hga : a.group with
  | none =>
    cases hgb : b.group with
    | none =>
      cases hgc : c.group with
      | none =>
        simp only [hga, hgb] at hab
        simp only [hgb, hgc] at hbc
        exact lexLe_trans hab hbc
      | some g3 =>
        simp only [hgb, hgc] at hbc
        cases hbc
    | some g2 =>
      simp only [hga, hgb] at hab
      cases hab
  | some g1 =>
    cases hgc : c.group with
    | none => rfl
    | some g3 =>
      cases hgb : b.group with
      | none =>
        simp only [hgb, hgc] at hbc
        cases hbc
      | some g2 =>
        simp only [hga, hgb] at hab
        simp only [hgb, hgc] at hbc
        rcases Nat.lt_trichotomy g1 g3 with h | h | h
        · simp [h]
        · subst h
          simp only [Nat.lt_irrefl, if_false]
          rcases Nat.lt_trichotomy g1 g2 with h2 | h2 | h2
          · rw [if_neg (by omega), if_pos h2] at hbc
            cases hbc
          · subst h2
            simp only [Nat.lt_irrefl, if_false] at hab hbc
            exact lexLe_trans hab hbc
          · rw [if_neg (by omega), if_pos h2] at hab
            cases hab
        · exfalso
          rcases Nat.lt_trichotomy g1 g2 with h2 | h2 | h2
          · rcases Nat.lt_trichotomy g2 g3 with h3 | h3 | h3
            · omega
            · omega
            · rw [if_neg (by omega), if_pos h3] at hbc
              cases hbc
          · subst h2
            rw [if_neg (by omega), if_pos h] at hbc
            cases hbc
          · rw [if_neg (by omega), if_pos h2] at hab
            cases hab

instance : IsTotal Row RowLe := ⟨rowLe_total⟩

instance : IsTrans Row RowLe := ⟨fun _ _ _ => rowLe_trans⟩

theorem rrowLe_render (r1 r2 : Row) : rrowLe (renderRow r1) (renderRow r2) = rowLe r1 r2 := by
  unfold rrowLe rowLe renderRow
  rfl

/-- C9: whenever `combineOverlaps` returns a table, the table has
exactly one row per ingested record (its length is the sum of the
sources' record counts), its rows are sorted by (Group, Subgrp) with
ungrouped rows last, and the Group column is rendered as a string that
is `"none"` exactly on the ungrouped rows. -/
theorem C9_output_contract (dl : String → String → Nat)
    (sources : List (String × List Entry)) (table : List RenderedRow)
    (h : combineOverlaps dl sources = some table) :
    table.length = ((sources.map fun s => s.2.length).sum) ∧
    List.Sorted RRowLe table ∧
    table.Pairwise (fun r1 r2 => r1.group = none → r2.group = none) ∧
    (∀ r ∈ table, (r.group = none → r.groupStr = "none") ∧
      ∀ gnum, r.group = some gnum → r.groupStr = natToStr gnum) := by
  unfold combineOverlaps at h
  cases hrun : combineOverlapsRun dl sources with
  | none =>
    rw [hrun] at h
    cases h
  | some st =>
    simp only [hrun] at h
    cases h
    have hsorted : List.Sorted RowLe (List.insertionSort RowLe st.rows) :=
      List.sorted_insertionSort RowLe st.rows
    have hsortedR : List.Sorted RRowLe ((List.insertionSort RowLe st.rows).map renderRow) := by
      refine List.Pairwise.map renderRow ?_ hsorted
      intro r1 r2 h12
      show rrowLe (renderRow r1) (renderRow r2) = true
      rw [rrowLe_render]
      exact h12
    refine ⟨?_, hsortedR, ?_, ?_⟩
    · have hlen : (List.insertionSort RowLe st.rows).length = st.rows.length :=
        (List.perm_insertionSort RowLe st.rows).length_eq
      have hcount := combineAux_rows sources initSt st hrun
      simp only [List.length_map, hlen]
      exact hcount.trans (Nat.zero_add _)
    · refine hsortedR.imp ?_
      intro r1 r2 h12 hnone
      cases hg2 : r2.group with
      | none => rfl
      | some g2 =>
        exfalso
        unfold RRowLe rrowLe at h12
        simp only [hnone, hg2] at h12
        exact Bool.noConfusion h12
    · intro r hr
      obtain ⟨r0, _, rfl⟩ := List.mem_map.mp hr
      constructor
      · intro hnone
        unfold renderRow at hnone ⊢
        simp only at hnone ⊢
        rw [hnone]
      · intro gnum hsome
        unfold renderRow at hsome ⊢
        simp only at hsome ⊢
        rw [hsome]

/-- C9 witness: the contract applied to the concrete two-record
Medline source, whose run succeeds. -/
theorem C9_witness :
    ∃ t, combineOverlaps dlStub medSources = some t ∧
      (t.length = ((medSources.map fun s => s.2.length).sum) ∧
       List.Sorted RRowLe t ∧
       t.Pairwise (fun r1 r2 => r1.group = none → r2.group = none) ∧
       (∀ r ∈ t, (r.group = none → r.groupStr = "none") ∧
         ∀ gnum, r.group = some gnum → r.groupStr = natToStr gnum)) := by
  cases hc : combineOverlaps dlStub medSources with
  | none => exact absurd hc (by decide)
  | some t => exact ⟨t, rfl, C9_output_contract dlStub medSources t hc⟩

/-! ### Claim C10: the lookup invariant -/

theorem findGroups_members {theId : String} {members : List String} {c : Nat}
    {m : List (String × Nat)} {mg : Nat}
    (h : (findGroups theId members c m).2.1 = some mg) : 1 < members.length := by
  by_contra hlen
  unfold findGroups at h
  rw [if_neg hlen] at h
  cases h

theorem seed_mem_closureOf {dbs : List Entry} {seed : Entry} (hseed : seed ∈ dbs)
    (hne : closureOf (globalIndexes dbs) dbs seed ≠ []) :
    seed.id ∈ closureOf (globalIndexes dbs) dbs seed := by
  by_cases hss :
      matchListMaker seed.pmid seed.authorKey seed.titleMin (globalIndexes dbs) [] = []
  · exfalso
    apply hne
    unfold closureOf
    rw [hss]
    exact expandLoop_nil _ _ _ _
  · have hmem := seed_mem_seedStep hseed hss
    unfold closureOf
    obtain ⟨ext, hext⟩ := expandLoop_ext (globalIndexes dbs) dbs seed.id (dbs.length + 1)
      (matchListMaker seed.pmid seed.authorKey seed.titleMin (globalIndexes dbs) [])
    rw [hext]
    exact List.mem_append_left _ hmem

theorem subGroupV2_assigns {dl : String → String → Nat} {dbs : List Entry}
    {idList : List String} {mg : Nat} {st st2 : OverlapSt}
    (h : subGroupV2 dl dbs idList mg st = some st2) :
    ∀ a ∈ idList, (st2.i2s a).isSome := by
  unfold subGroupV2 at h
  simp only [] at h
  split at h
  · cases h
  · split at h
    · cases h
    · rename_i cst heq2
      cases h
      intro a ha
      show ((singletonPhase mg idList cst).i2s a).isSome
      exact singletonPhase_assigns idList cst a ha

theorem pairStep_inv {mg : Nat} {dmap : DistMap} {st : ClusterSt} {a b : String}
    {st2 : ClusterSt}
    (hinv : ∀ i s, st.i2s i = some s → (st.s2i s).isSome)
    (h : pairStep mg dmap st a b = some st2) :
    (∀ i s, st2.i2s i = some s → (st2.s2i s).isSome) ∧
    (∀ k, (st.s2i k).isSome → (st2.s2i k).isSome) := by
  unfold pairStep at h
  simp only [] at h
  split at h
  · cases h
    exact ⟨hinv, fun _ hk => hk⟩
  · split at h
    · cases h
      exact ⟨hinv, fun _ hk => hk⟩
    · split at h
      · cases h
      · rename_i d
        split at h
        · split at h
          · rename_i ga hga
            split at h
            · cases h
            · rename_i ng hng
              split at h
              · cases h
              · rename_i bucket hbucket
                cases h
                constructor
                · intro i s hi
                  have hi' : updMap st.i2s b ga i = some s := hi
                  show (updMap st.s2i ng (bucket ++ [b]) s).isSome
                  by_cases hib : i = b
                  · subst hib
                    rw [updMap_same] at hi'
                    cases hi'
                    by_cases hgn : ga = ng
                    · subst hgn
                      rw [updMap_same]
                      rfl
                    · rw [updMap_other _ _ hgn]
                      exact hinv a ga hga
                  · rw [updMap_other _ _ hib] at hi'
                    exact updMap_isSome (hinv i s hi')
                · intro k hk
                  exact updMap_isSome hk
          · split at h
            · rename_i gb hgb
              split at h
              · cases h
              · rename_i ng hng
                split at h
                · cases h
                · rename_i bucket hbucket
                  cases h
                  constructor
                  · intro i s hi
                    have hi' : updMap st.i2s a gb i = some s := hi
                    show (updMap st.s2i ng (bucket ++ [a]) s).isSome
                    by_cases hia : i = a
                    · subst hia
                      rw [updMap_same] at hi'
                      cases hi'
                      by_cases hgn : gb = ng
                      · subst hgn
                        rw [updMap_same]
                        rfl
                      · rw [updMap_other _ _ hgn]
                        exact hinv b gb hgb
                    · rw [updMap_other _ _ hia] at hi'
                      exact updMap_isSome (hinv i s hi')
                  · intro k hk
                    exact updMap_isSome hk
            · cases h
              constructor
              · intro i s hi
                have hi' : updMap (updMap st.i2s a (subgroupName mg st.groupNum)) b
                    (subgroupName mg st.groupNum) i = some s := hi
                show (updMap st.s2i (subgroupName mg st.groupNum) [a, b] s).isSome
                by_cases hib : i = b
                · subst hib
                  rw [updMap_same] at hi'
                  cases hi'
                  rw [updMap_same]
                  rfl
                · rw [updMap_other _ _ hib] at hi'
                  by_cases hia : i = a
                  · subst hia
                    rw [updMap_same] at hi'
                    cases hi'
                    rw [updMap_same]
                    rfl
                  · rw [updMap_other _ _ hia] at hi'
                    exact updMap_isSome (hinv i s hi')
              · intro k hk
                exact updMap_isSome hk
        · cases h
          exact ⟨hinv, fun _ hk => hk⟩

theorem passInner_inv {mg : Nat} {dmap : DistMap} {a : String} :
    ∀ (bs : List String) (st st2 : ClusterSt),
      (∀ i s, st.i2s i = some s → (st.s2i s).isSome) →
      passInner mg dmap a bs st = some st2 →
      (∀ i s, st2.i2s i = some s → (st2.s2i s).isSome) ∧
      (∀ k, (st.s2i k).isSome → (st2.s2i k).isSome) := by
  intro bs
  induction bs with
  | nil =>
    intro st st2 hinv h
    cases h
    exact ⟨hinv, fun _ hk => hk⟩
  | cons b rest ih =>
    intro st st2 hinv h
    unfold passInner at h
    cases hp : pairStep mg dmap st a b with
    | none =>
      rw [hp] at h
      cases h
    | some st1 =>
      simp only [hp] at h
      obtain ⟨hinv1, hmono1⟩ := pairStep_inv hinv hp
      obtain ⟨hinv2, hmono2⟩ := ih st1 st2 hinv1 h
      exact ⟨hinv2, fun k hk => hmono2 k (hmono1 k hk)⟩

theorem passOuter_inv {mg : Nat} {dmap : DistMap} {idList : List String} :
    ∀ (as : List String) (st st2 : ClusterSt),
      (∀ i s, st.i2s i = some s → (st.s2i s).isSome) →
      passOuter mg dmap idList as st = some st2 →
      (∀ i s, st2.i2s i = some s → (st2.s2i s).isSome) ∧
      (∀ k, (st.s2i k).isSome → (st2.s2i k).isSome) := by
  intro as
  induction as with
  | nil =>
    intro st st2 hinv h
    cases h
    exact ⟨hinv, fun _ hk => hk⟩
  | cons a rest ih =>
    intro st st2 hinv h
    unfold passOuter at h
    cases hp : passInner mg dmap a idList st with
    | none =>
      rw [hp] at h
      cases h
    | some st1 =>
      simp only [hp] at h
      obtain ⟨hinv1, hmono1⟩ := passInner_inv idList st st1 hinv hp
      obtain ⟨hinv2, hmono2⟩ := ih st1 st2 hinv1 h
      exact ⟨hinv2, fun k hk => hmono2 k (hmono1 k hk)⟩

theorem singletonPhase_inv {mg : Nat} :
    ∀ (l : List String) (st : ClusterSt),
      (∀ i s, st.i2s i = some s → (st.s2i s).isSome) →
      (∀ i s, (singletonPhase mg l st).i2s i = some s →
        ((singletonPhase mg l st).s2i s).isSome) ∧
      (∀ k, (st.s2i k).isSome → ((singletonPhase mg l st).s2i k).isSome) := by
  intro l
  induction l with
  | nil =>
    intro st hinv
    exact ⟨hinv, fun _ hk => hk⟩
  | cons a rest ih =>
    intro st hinv
    rw [singletonPhase_cons]
    by_cases hsa : (st.i2s a).isSome
    · rw [if_pos hsa]
      exact ih st hinv
    · rw [if_neg hsa]
      have hinv2 : ∀ i s,
          ({ st with
              i2s := updMap st.i2s a (subgroupName mg st.groupNum),
              s2i := updMap st.s2i (subgroupName mg st.groupNum) [a],
              nextGroup := some (subgroupName mg st.groupNum),
              groupNum := st.groupNum + 1 } : ClusterSt).i2s i = some s →
          ((updMap st.s2i (subgroupName mg st.groupNum) [a]) s).isSome := by
        intro i s hi
        have hi' : updMap st.i2s a (subgroupName mg st.groupNum) i = some s := hi
        by_cases hia : i = a
        · subst hia
          rw [updMap_same] at hi'
          cases hi'
          rw [updMap_same]
          rfl
        · rw [updMap_other _ _ hia] at hi'
          exact updMap_isSome (hinv i s hi')
      obtain ⟨ha1, ha2⟩ := ih _ hinv2
      exact ⟨ha1, fun k hk => ha2 k (updMap_isSome hk)⟩

theorem subGroupV2_inv {dl : String → String → Nat} {dbs : List Entry}
    {idList : List String} {mg : Nat} {st st2 : OverlapSt}
    (hdot : (st.s2i ".").isSome)
    (hinv : ∀ i s, st.i2s i = some s → (st.s2i s).isSome)
    (h : subGroupV2 dl dbs idList mg st = some st2) :
    (st2.s2i ".").isSome ∧ ∀ i s, st2.i2s i = some s → (st2.s2i s).isSome := by
  unfold subGroupV2 at h
  simp only [] at h
  split at h
  · cases h
  · split at h
    · cases h
    · rename_i cst heq2
      cases h
      obtain ⟨hinv1, hmono1⟩ :=
        passOuter_inv idList ⟨st.i2s, st.s2i, none, 0⟩ cst hinv heq2
      obtain ⟨hinv2, hmono2⟩ := singletonPhase_inv idList cst hinv1
      exact ⟨hmono2 "." (hmono1 "." hdot), fun i s hi => hinv2 i s hi⟩

theorem processRecord_inv {dl : String → String → Nat} {dbs : List Entry}
    {g : GlobalIndexes} {ab : String} {st : FullSt} {e : Entry} {st2 : FullSt}
    (hinv : OverInv st.over) (h : processRecord dl dbs g ab st e = some st2) :
    OverInv st2.over := by
  unfold processRecord at h
  simp only [] at h
  split at h
  · cases h
  · rename_i st1 heq
    have hinv1 : OverInv st1.over := by
      split at heq
      · split at heq
        · split at heq
          · cases heq
          · rename_i over2 hsg
            cases heq
            show OverInv over2
            obtain ⟨hdot, hi⟩ := hinv
            exact subGroupV2_inv hdot hi hsg
        · cases heq
          obtain ⟨hdot, hi⟩ := hinv
          refine ⟨hdot, ?_⟩
          intro i s hi2
          have hi2' : updMap st.over.i2s e.id "." i = some s := hi2
          by_cases hie : i = e.id
          · subst hie
            rw [updMap_same] at hi2'
            cases hi2'
            exact hdot
          · rw [updMap_other _ _ hie] at hi2'
            exact hi i s hi2'
      · cases heq
        exact hinv
    split at h
    · cases h
    · split at h
      · cases h
      · split at h
        · cases h
        · split at h
          · cases h
          · split at h
            · cases h
            · split at h
              · cases h
              · cases h
                exact hinv1

theorem clusterStage_hits {dl : String → String → Nat} {dbs : List Entry}
    {ab : String} {st : FullSt} {e : Entry} {st1 : FullSt}
    (he : e ∈ dbs) (hinv : OverInv st.over)
    (h : clusterStage dl dbs (globalIndexes dbs) ab st e = some st1) :
    ∃ s, st1.over.i2s e.id = some s ∧ (st1.over.s2i s).isSome := by
  unfold clusterStage at h
  simp only [] at h
  split at h
  · split at h
    · rename_i mg hfg
      split at h
      · cases h
      · rename_i over2 hsg
        cases h
        have hlen : 1 < (closureOf (globalIndexes dbs) dbs e).length :=
          findGroups_members hfg
        have hne : closureOf (globalIndexes dbs) dbs e ≠ [] := by
          intro hnil
          rw [hnil] at hlen
          simp at hlen
        have hmem : e.id ∈ closureOf (globalIndexes dbs) dbs e :=
          seed_mem_closureOf he hne
        have hassigned := subGroupV2_assigns hsg e.id hmem
        obtain ⟨s, hs⟩ := Option.isSome_iff_exists.mp hassigned
        refine ⟨s, hs, ?_⟩
        obtain ⟨hdot, hi⟩ := hinv
        obtain ⟨_, hi2⟩ := subGroupV2_inv hdot hi hsg
        exact hi2 e.id s hs
    · cases h
      refine ⟨".", ?_, ?_⟩
      · show updMap st.over.i2s e.id "." e.id = some "."
        exact updMap_same _ _ _
      · exact hinv.1
  · rename_i hc
    cases h
    push_neg at hc
    have hsome : (st.over.i2s e.id).isSome := by
      cases hx : st.over.i2s e.id with
      | none =>
        exfalso
        exact hc.2 (by rw [hx]; rfl)
      | some s => rfl
    obtain ⟨s, hs⟩ := Option.isSome_iff_exists.mp hsome
    exact ⟨s, hs, hinv.2 e.id s hs⟩

theorem processRecord_stage {dl : String → String → Nat} {dbs : List Entry}
    {g : GlobalIndexes} {ab : String} {st : FullSt} {e : Entry} {st2 : FullSt}
    (h : processRecord dl dbs g ab st e = some st2) :
    ∃ st1, clusterStage dl dbs g ab st e = some st1 ∧ st2.over = st1.over := by
  unfold processRecord at h
  simp only [] at h
  split at h
  · cases h
  · rename_i st1 heq
    refine ⟨st1, ?_, ?_⟩
    · show clusterStage dl dbs g ab st e = some st1
      unfold clusterStage
      exact heq
    · split at h
      · cases h
      · split at h
        · cases h
        · split at h
          · cases h
          · split at h
            · cases h
            · split at h
              · cases h
              · split at h
                · cases h
                · cases h
                  rfl

/-- C10: (i) a successful `subGroupV2` call assigns a subgroup to every
member of the component it is given; (ii) `processRecord` preserves the
invariant that the `'.'` fallback bucket exists and every assigned
subgroup id is a key of `subgroupToId`; (iii) under that invariant, when
the clustering stage of a record of an ingested database succeeds, the
record's id has an `idToSubgroup` entry whose subgroup id is a key of
`subgroupToId`, so the row-assembly lookups that follow never miss a
key; (iv) a successful `processRecord` is the clustering stage followed
by row assembly, which leaves the engine maps unchanged. -/
theorem C10_lookup_invariant :
    (∀ (dl : String → String → Nat) (dbs : List Entry) (idList : List String)
        (mg : Nat) (st st2 : OverlapSt),
        subGroupV2 dl dbs idList mg st = some st2 →
        ∀ a ∈ idList, (st2.i2s a).isSome) ∧
    (∀ (dl : String → String → Nat) (dbs : List Entry) (g : GlobalIndexes)
        (ab : String) (st : FullSt) (e : Entry) (st2 : FullSt),
        OverInv st.over → processRecord dl dbs g ab st e = some st2 →
        OverInv st2.over) ∧
    (∀ (dl : String → String → Nat) (dbs : List Entry) (ab : String)
        (st : FullSt) (e : Entry) (st1 : FullSt),
        e ∈ dbs → OverInv st.over →
        clusterStage dl dbs (globalIndexes dbs) ab st e = some st1 →
        ∃ s, st1.over.i2s e.id = some s ∧ (st1.over.s2i s).isSome) ∧
    (∀ (dl : String → String → Nat) (dbs : List Entry) (g : GlobalIndexes)
        (ab : String) (st : FullSt) (e : Entry) (st2 : FullSt),
        processRecord dl dbs g ab st e = some st2 →
        ∃ st1, clusterStage dl dbs g ab st e = some st1 ∧ st2.over = st1.over) :=
  ⟨fun _ _ _ _ _ _ h => subGroupV2_assigns h,
   fun _ _ _ _ _ _ _ hinv h => processRecord_inv hinv h,
   fun _ _ _ _ _ _ he hinv h => clusterStage_hits he hinv h,
   fun _ _ _ _ _ _ _ h => processRecord_stage h⟩

/-- C10 witness: the lookup guarantee applied to the first Medline
record of the concrete two-record fixture, starting from the initial
engine state. -/
theorem C10_witness :
    ∃ st1 s,
      clusterStage dlStub [medOne, medTwo] (globalIndexes [medOne, medTwo])
        "MED" initSt medOne = some st1 ∧
      st1.over.i2s medOne.id = some s ∧ (st1.over.s2i s).isSome := by
  cases hc : clusterStage dlStub [medOne, medTwo] (globalIndexes [medOne, medTwo])
      "MED" initSt medOne with
  | none =>
    have hsome : (clusterStage dlStub [medOne, medTwo] (globalIndexes [medOne, medTwo])
        "MED" initSt medOne).isSome = true := by decide
    rw [hc] at hsome
    cases hsome
  | some st1 =>
    obtain ⟨s, hs, hb⟩ := C10_lookup_invariant.2.2.1 dlStub [medOne, medTwo]
      "MED" initSt medOne st1 (by decide)
      ⟨by decide, fun i s hi => Option.noConfusion hi⟩ hc
    exact ⟨st1, s, rfl, hs, hb⟩
